import Mathlib

/-!
# SkyGraph — shallow embedding and verification

A shallow embedding of the core logic of the SkyGraph editor assistant:
the validation runner (`src/validation/run-validation.ts`), the agent loop
(`chatWithTools`), the index builder (`src/context/indexer/index.ts`), the
pattern-graph builder (`src/context/indexer/pattern-graph.ts`), the context
composer (`src/context/finder-graph.ts`) and the `propose_edits` tool handler.

JavaScript `Map`s and plain objects are modelled as insertion-ordered
association lists (`AList`); JS numbers are modelled as rationals (`ℚ`);
the file system is an association list from normalized relative paths to
file contents; external effects (child processes, the LLM endpoint, the
content hash, the scanner policy and the regex extractor, which live outside
the embedded modules) are oracle parameters.
-/

namespace SkyGraph

/- Batteries marks the rational operations `@[irreducible]`; re-open them for
this file so that concrete weights evaluate by `decide`. -/
attribute [local semireducible] Rat.add Rat.mul Rat.inv Rat.sub

set_option maxRecDepth 100000

/-! ## Association lists (JS `Map` / object with string keys, insertion order) -/

abbrev AList (α : Type) := List (String × α)

/-- `m.get k` — `Map.get` / property read. -/
def alGet (m : AList α) (k : String) : Option α :=
  (m.find? (fun e => e.1 == k)).map (·.2)

/-- `m.set k v` — `Map.set` / property write: updates in place, appends new keys. -/
def alSet (m : AList α) (k : String) (v : α) : AList α :=
  match m with
  | [] => [(k, v)]
  | e :: rest => if e.1 == k then (k, v) :: rest else e :: alSet rest k v

/-- `delete m[k]`. -/
def alErase (m : AList α) (k : String) : AList α :=
  m.filter (fun e => e.1 != k)

/-- `m.has k` / `k in m`. -/
def alHasKey (m : AList α) (k : String) : Bool :=
  (alGet m k).isSome

/-- `Object.keys m`. -/
def alKeys (m : AList α) : List String :=
  m.map (·.1)

@[simp] theorem alGet_nil (k : String) : alGet ([] : AList α) k = none := rfl

theorem alGet_cons (e : String × α) (m : AList α) (k : String) :
    alGet (e :: m) k = if e.1 = k then some e.2 else alGet m k := by
  by_cases h : e.1 = k
  · simp [alGet, List.find?, h]
  · have hb : (e.1 == k) = false := by simp [h]
    simp [alGet, List.find?, h, hb]

@[simp] theorem alGet_alSet_self (m : AList α) (k : String) (v : α) :
    alGet (alSet m k v) k = some v := by
  induction m with
  | nil => simp [alSet, alGet_cons]
  | cons e rest ih =>
    by_cases h : e.1 = k
    · simp [alSet, h, alGet_cons]
    · simp only [alSet, beq_iff_eq, h, if_false]
      rw [alGet_cons, if_neg h]
      exact ih

theorem alGet_alSet_ne (m : AList α) (k q : String) (v : α) (h : q ≠ k) :
    alGet (alSet m k v) q = alGet m q := by
  induction m with
  | nil => simp [alSet, alGet_cons, (Ne.symm h)]
  | cons e rest ih =>
    by_cases he : e.1 = k
    · simp only [alSet, beq_iff_eq, he, if_true]
      rw [alGet_cons, alGet_cons, he, if_neg (Ne.symm h), if_neg (Ne.symm h)]
    · simp only [alSet, beq_iff_eq, he, if_false]
      rw [alGet_cons, alGet_cons]
      by_cases hq : e.1 = q
      · simp [hq]
      · simp only [hq, if_false]
        exact ih

theorem alErase_cons_self (e : String × α) (rest : AList α) (h : e.1 = k) :
    alErase (e :: rest) k = alErase rest k := by
  simp [alErase, List.filter, h]

theorem alErase_cons_ne (e : String × α) (rest : AList α) (h : ¬ e.1 = k) :
    alErase (e :: rest) k = e :: alErase rest k := by
  have hb : (e.1 != k) = true := by simp [h]
  simp [alErase, List.filter, hb]

@[simp] theorem alGet_alErase_self (m : AList α) (k : String) :
    alGet (alErase m k) k = none := by
  induction m with
  | nil => rfl
  | cons e rest ih =>
    by_cases h : e.1 = k
    · rw [alErase_cons_self e rest h]; exact ih
    · rw [alErase_cons_ne e rest h, alGet_cons, if_neg h]; exact ih

theorem alGet_alErase_ne (m : AList α) (k q : String) (h : q ≠ k) :
    alGet (alErase m k) q = alGet m q := by
  induction m with
  | nil => rfl
  | cons e rest ih =>
    by_cases he : e.1 = k
    · rw [alErase_cons_self e rest he, ih, alGet_cons, if_neg (he ▸ (Ne.symm h))]
    · rw [alErase_cons_ne e rest he, alGet_cons, alGet_cons, ih]

/-! ## JS string helpers -/

/-- `s.replace(/\\/g, '/')`. -/
def normSlash (s : String) : String :=
  String.mk (s.data.map (fun c => if c = '\\' then '/' else c))

/-- The whitespace class removed by JS `String.prototype.trim`
(restricted to the characters that occur in this code base's strings). -/
def jsWhitespace (c : Char) : Bool :=
  c = ' ' || c = '\t' || c = '\n' || c = '\r'

/-- `s.trim()`. -/
def jsTrim (s : String) : String :=
  String.mk (((s.data.dropWhile jsWhitespace).reverse.dropWhile jsWhitespace).reverse)

/-- Strip `sep` from the front of `l` when it is a prefix. -/
def stripPrefixChars : List Char → List Char → Option (List Char)
  | [], l => some l
  | _ :: _, [] => none
  | c :: sepRest, x :: rest =>
    if c = x then stripPrefixChars sepRest rest else none

/-- Character-level splitter on a non-empty separator, fuelled by the input
length so the recursion is structural (and hence kernel-reducible). -/
def splitOnFuel (sep : List Char) : Nat → List Char → List Char → List (List Char)
  | _, [], acc => [acc.reverse]
  | 0, l, acc => [acc.reverse ++ l]
  | fuel + 1, c :: rest, acc =>
    match stripPrefixChars sep (c :: rest) with
    | some rest2 => acc.reverse :: splitOnFuel sep fuel rest2 []
    | none => splitOnFuel sep fuel rest (c :: acc)

/-- `s.split(sep)` for a non-empty string separator (the only form the
source uses: `'/'` and `'->'`). -/
def jsSplitOn (s sep : String) : List String :=
  (splitOnFuel sep.data s.data.length s.data []).map String.mk

/-- `parts.join(sep)`. -/
def joinSep (sep : String) : List String → String
  | [] => ""
  | [x] => x
  | x :: rest => x ++ sep ++ joinSep sep rest

/-! ## Validation runner — `src/validation/run-validation.ts`

The workspace file system is an association list from normalized relative
paths to file contents (as strings standing for byte arrays). Directories
are not materialized: `createDirectory` has no effect on the file map.
External commands are an oracle `CmdOracle` returning the combined
stdout+stderr text and a failure flag; `runOneCommand` catches every
throw from `execSync` and turns it into `failed := true`, so command
execution never escapes the embedding either. -/

abbrev FileSys := AList String

structure EditItem where
  path : String
  content : String
deriving DecidableEq, Repr

structure Backup where
  path : String
  content : String
  existed : Bool
deriving DecidableEq, Repr

structure CmdResult where
  output : String
  failed : Bool
deriving DecidableEq, Repr

abbrev CmdOracle := String → CmdResult

/-- `const ENABLE_VALIDATION_COMMANDS = false;` (line 15 of the source). -/
def ENABLE_VALIDATION_COMMANDS : Bool := false

/-- The backup-and-write loop: for each edit, read the current content into a
backup record (noting non-existence), then write the proposed content. -/
def backupPhase (fs : FileSys) : List EditItem → FileSys × List Backup
  | [] => (fs, [])
  | e :: rest =>
    let p := normSlash e.path
    let b : Backup :=
      match alGet fs p with
      | some data => ⟨p, data, true⟩
      | none => ⟨p, "", false⟩
    let fs1 := alSet fs p e.content
    let step := backupPhase fs1 rest
    (step.1, b :: step.2)

/-- Restoring a single backup in the `finally` block: rewrite the saved
content, or delete the file when it did not exist before the call. -/
def restoreOne (fs : FileSys) (b : Backup) : FileSys :=
  if b.existed then alSet fs b.path b.content else alErase fs b.path

/-- The `finally` restore loop, in backup order. -/
def restorePhase (fs : FileSys) (bs : List Backup) : FileSys :=
  bs.foldl restoreOne fs

/-- The command loop: run each command, collect a
`--- cmd ---\noutput` part whenever it failed or produced output,
and set `hasErrors` when any command failed.
Returns (parts, hasErrors, commands actually run). -/
def runCommandLoop (oracle : CmdOracle) : List String → List String × Bool × List String
  | [] => ([], false, [])
  | c :: cs =>
    let r := oracle c
    let (parts, he, ran) := runCommandLoop oracle cs
    let parts' := if r.failed || r.output != "" then ("--- " ++ c ++ " ---\n" ++ r.output) :: parts else parts
    (parts', r.failed || he, c :: ran)

structure ValidationOutcome where
  output : String
  hasErrors : Bool
  fs : FileSys
  commandsRun : List String
  parts : List String
deriving DecidableEq, Repr

/-- `runValidation(workspaceUri, edits, options)` with the
`ENABLE_VALIDATION_COMMANDS` gate left as the parameter `flag`
(the source fixes it to `false`; see `runValidation` below).
Phases, as in the source: early return on an empty edit set; backup+write
every edit; run the configured commands only when some were supplied and
the flag is on; always restore every backup in the `finally` block. -/
def runValidationGen (flag : Bool) (oracle : CmdOracle) (fs : FileSys)
    (edits : List EditItem) (commands : Option (List String)) : ValidationOutcome :=
  if edits.isEmpty then ⟨"", false, fs, [], []⟩
  else
    let bk := backupPhase fs edits
    let cmdRes :=
      match commands with
      | some cs => if !cs.isEmpty && flag then runCommandLoop oracle cs else ([], false, [])
      | none => ([], false, [])
    let output := jsTrim (joinSep "\n\n" cmdRes.1)
    let fs2 := restorePhase bk.1 bk.2
    ⟨output, cmdRes.2.1, fs2, cmdRes.2.2, cmdRes.1⟩

/-- `runValidation` as shipped: the command gate is the source's constant. -/
def runValidation (oracle : CmdOracle) (fs : FileSys)
    (edits : List EditItem) (commands : Option (List String)) : ValidationOutcome :=
  runValidationGen ENABLE_VALIDATION_COMMANDS oracle fs edits commands

/-! ### Validation runner: atomicity analysis (C1) -/

/-- The backup record the source builds for path `p` against file system `fs`. -/
def backupOf (fs : FileSys) (p : String) : Backup :=
  match alGet fs p with
  | some data => ⟨p, data, true⟩
  | none => ⟨p, "", false⟩

@[simp] theorem backupOf_path (fs : FileSys) (p : String) : (backupOf fs p).path = p := by
  unfold backupOf
  cases alGet fs p <;> rfl

theorem backupOf_eq_of_get_some (fs : FileSys) (p : String) (d : String)
    (h : alGet fs p = some d) : backupOf fs p = ⟨p, d, true⟩ := by
  unfold backupOf; rw [h]

theorem backupOf_eq_of_get_none (fs : FileSys) (p : String)
    (h : alGet fs p = none) : backupOf fs p = ⟨p, "", false⟩ := by
  unfold backupOf; rw [h]

/-- Restoring a backup that faithfully records `fs`'s state at its path
brings that path back to `fs`'s state. -/
theorem restoreOne_of_backup (g fs : FileSys) (b : Backup)
    (hb : b = backupOf fs b.path) :
    alGet (restoreOne g b) b.path = alGet fs b.path := by
  obtain ⟨p, c, ex⟩ := b
  have hb' : (⟨p, c, ex⟩ : Backup) = backupOf fs p := hb
  show alGet (restoreOne g ⟨p, c, ex⟩) p = alGet fs p
  cases hfs : alGet fs p with
  | some d =>
    rw [backupOf_eq_of_get_some fs p d hfs] at hb'
    simp only [Backup.mk.injEq] at hb'
    obtain ⟨-, hc, hex⟩ := hb'
    subst hc; subst hex
    simp [restoreOne, hfs]
  | none =>
    rw [backupOf_eq_of_get_none fs p hfs] at hb'
    simp only [Backup.mk.injEq] at hb'
    obtain ⟨-, -, hex⟩ := hb'
    subst hex
    simp [restoreOne, hfs]

/-- The normalized paths of an edit set. -/
def editPaths (edits : List EditItem) : List String :=
  edits.map (fun e => normSlash e.path)

/-- Paths outside the edit set are untouched by the backup/write phase. -/
theorem backupPhase_frame (edits : List EditItem) :
    ∀ (fs : FileSys) (q : String), q ∉ editPaths edits →
      alGet (backupPhase fs edits).1 q = alGet fs q := by
  induction edits with
  | nil => intro fs q _; rfl
  | cons e rest ih =>
    intro fs q hq
    have hq1 : q ≠ normSlash e.path := by
      intro h; exact hq (by simp [editPaths, h])
    have hq2 : q ∉ editPaths rest := by
      intro h; exact hq (by simp only [editPaths, List.map_cons, List.mem_cons]; right; exact h)
    show alGet (backupPhase (alSet fs (normSlash e.path) e.content) rest).1 q = alGet fs q
    rw [ih _ q hq2, alGet_alSet_ne _ _ _ _ hq1]

/-- With pairwise distinct normalized paths, every backup records the
pre-call content of its path. -/
theorem backupPhase_backups (edits : List EditItem) :
    ∀ fs : FileSys, (editPaths edits).Nodup →
      (backupPhase fs edits).2 = edits.map (fun e => backupOf fs (normSlash e.path)) := by
  induction edits with
  | nil => intro fs _; rfl
  | cons e rest ih =>
    intro fs hnd
    have hnd' := hnd
    rw [editPaths, List.map_cons, List.nodup_cons] at hnd'
    obtain ⟨hhead, htail⟩ := hnd'
    show (backupOf fs (normSlash e.path)) ::
        (backupPhase (alSet fs (normSlash e.path) e.content) rest).2 = _
    rw [List.map_cons, ih _ htail]
    congr 1
    apply List.map_congr_left
    intro x hx
    have hne : normSlash x.path ≠ normSlash e.path := by
      intro h
      exact hhead (h ▸ List.mem_map_of_mem (fun y => normSlash y.path) hx)
    unfold backupOf
    rw [alGet_alSet_ne _ _ _ _ hne]

/-- The restore loop puts every backed-up path back to the recorded state and
leaves everything else alone. -/
theorem restorePhase_spec (fs : FileSys) :
    ∀ (bs : List Backup) (g : FileSys),
      (∀ b ∈ bs, b = backupOf fs b.path) → (bs.map (·.path)).Nodup →
      ∀ q, alGet (restorePhase g bs) q =
        if q ∈ bs.map (·.path) then alGet fs q else alGet g q := by
  intro bs
  induction bs with
  | nil => intro g _ _ q; simp [restorePhase]
  | cons b rest ih =>
    intro g hb hnd q
    have hbsrc := hb b (List.mem_cons_self b rest)
    have hrest : ∀ x ∈ rest, x = backupOf fs x.path :=
      fun x hx => hb x (List.mem_cons_of_mem b hx)
    rw [List.map_cons, List.nodup_cons] at hnd
    obtain ⟨hhead, htail⟩ := hnd
    show alGet (restorePhase (restoreOne g b) rest) q = _
    rw [ih (restoreOne g b) hrest htail q]
    by_cases hq : q ∈ rest.map (·.path)
    · rw [if_pos hq, if_pos (by simp only [List.map_cons, List.mem_cons]; right; exact hq)]
    · rw [if_neg hq]
      by_cases hqb : q = b.path
      · rw [if_pos (by simp [hqb]), hqb]
        exact restoreOne_of_backup g fs b hbsrc
      · have hnotin : q ∉ (b :: rest).map (·.path) := by
          simp only [List.map_cons, List.mem_cons]
          rintro (h | h)
          · exact hqb h
          · exact hq h
        rw [if_neg hnotin]
        unfold restoreOne
        by_cases hex : b.existed
        · rw [if_pos hex, alGet_alSet_ne _ _ _ _ hqb]
        · rw [if_neg hex, alGet_alErase_ne _ _ _ hqb]

/-- C1 (amended): provided the edit set's normalized paths are pairwise
distinct, `runValidation` leaves every file exactly as it was before the
call — files that existed are back to their backed-up content, files that
did not exist are absent — regardless of the command oracle and options. -/
theorem runValidation_atomic_of_nodup_paths (oracle : CmdOracle) (fs : FileSys)
    (edits : List EditItem) (commands : Option (List String))
    (h : (editPaths edits).Nodup) :
    ∀ q, alGet (runValidation oracle fs edits commands).fs q = alGet fs q := by
  intro q
  unfold runValidation runValidationGen
  by_cases hemp : edits.isEmpty
  · rw [if_pos hemp]
  · rw [if_neg hemp]
    show alGet (restorePhase (backupPhase fs edits).1 (backupPhase fs edits).2) q = alGet fs q
    rw [backupPhase_backups edits fs h]
    have hspec := restorePhase_spec fs (edits.map (fun e => backupOf fs (normSlash e.path)))
      (backupPhase fs edits).1
      (by
        intro b hb
        obtain ⟨e, _, rfl⟩ := List.mem_map.mp hb
        rw [backupOf_path])
      (by
        have : (edits.map (fun e => backupOf fs (normSlash e.path))).map (·.path) =
            editPaths edits := by
          rw [List.map_map]
          apply List.map_congr_left
          intro x _
          simp [backupOf_path]
        rw [this]; exact h)
      q
    rw [hspec]
    by_cases hq : q ∈ (edits.map (fun e => backupOf fs (normSlash e.path))).map (·.path)
    · rw [if_pos hq]
    · rw [if_neg hq]
      apply backupPhase_frame
      intro hmem
      apply hq
      rw [List.map_map]
      have : ((fun b : Backup => b.path) ∘ fun e : EditItem => backupOf fs (normSlash e.path)) =
          (fun e : EditItem => normSlash e.path) := by
        funext x; simp [backupOf_path]
      rw [this]
      exact hmem

/-- Pre-call file system for the C1 counterexample. -/
def c1Fs : FileSys := [("p.txt", "original")]

/-- An edit set naming the same file twice. -/
def c1Edits : List EditItem := [⟨"p.txt", "first"⟩, ⟨"p.txt", "second"⟩]

/-- A command oracle whose commands all succeed silently. -/
def okCmdOracle : CmdOracle := fun _ => ⟨"", false⟩

/-- C1 counterexample: with two edits naming the same path, after
`runValidation` returns the file holds the *first* proposed content
(the second backup recorded the first edit's write), not its pre-call
content — the call is not atomic as stated. -/
theorem runValidation_not_atomic_counterexample :
    alGet c1Fs "p.txt" = some "original" ∧
    alGet (runValidation okCmdOracle c1Fs c1Edits none).fs "p.txt" = some "first" := by
  constructor
  · rfl
  · rfl

/-- Distinct-path edit set used to witness the amended C1 theorem. -/
def c1wEdits : List EditItem := [⟨"a.txt", "newA"⟩, ⟨"b.txt", "newB"⟩]

theorem runValidation_atomic_witness :
    (editPaths c1wEdits).Nodup ∧
    alGet (runValidation okCmdOracle [("a.txt", "keep")] c1wEdits none).fs "b.txt" =
      alGet [("a.txt", "keep")] "b.txt" :=
  ⟨by decide,
   runValidation_atomic_of_nodup_paths okCmdOracle [("a.txt", "keep")] c1wEdits none
     (by decide) "b.txt"⟩

/-! ### Validation runner: command execution gate (C7) -/

theorem runCommandLoop_ran (oracle : CmdOracle) :
    ∀ cs, (runCommandLoop oracle cs).2.2 = cs := by
  intro cs
  induction cs with
  | nil => rfl
  | cons c rest ih =>
    show (_, (oracle c).failed || _, c :: (runCommandLoop oracle rest).2.2).2.2 = c :: rest
    rw [ih]

theorem runCommandLoop_hasErrors_of_failed (oracle : CmdOracle) :
    ∀ cs, ∀ c ∈ cs, (oracle c).failed = true → (runCommandLoop oracle cs).2.1 = true := by
  intro cs
  induction cs with
  | nil => intro c hc; exact absurd hc (List.not_mem_nil c)
  | cons c0 rest ih =>
    intro c hc hfail
    show ((oracle c0).failed || (runCommandLoop oracle rest).2.1) = true
    rcases List.mem_cons.mp hc with h | h
    · subst h; rw [hfail]; rfl
    · rw [ih c h hfail, Bool.or_true]

theorem runCommandLoop_part_of_failed (oracle : CmdOracle) :
    ∀ cs, ∀ c ∈ cs, (oracle c).failed = true →
      ("--- " ++ c ++ " ---\n" ++ (oracle c).output) ∈ (runCommandLoop oracle cs).1 := by
  intro cs
  induction cs with
  | nil => intro c hc; exact absurd hc (List.not_mem_nil c)
  | cons c0 rest ih =>
    intro c hc hfail
    show _ ∈ (if (oracle c0).failed || (oracle c0).output != "" then
      ("--- " ++ c0 ++ " ---\n" ++ (oracle c0).output) :: (runCommandLoop oracle rest).1
      else (runCommandLoop oracle rest).1)
    rcases List.mem_cons.mp hc with h | h
    · subst h
      rw [if_pos (by rw [hfail]; rfl)]
      exact List.mem_cons_self _ _
    · by_cases hcond : ((oracle c0).failed || (oracle c0).output != "") = true
      · rw [if_pos hcond]; exact List.mem_cons_of_mem _ (ih c h hfail)
      · rw [if_neg hcond]; exact ih c h hfail

/-- C7 (amended): command execution is gated by `ENABLE_VALIDATION_COMMANDS`,
which the source fixes to `false`. As shipped, every `runValidation` call runs
zero commands and returns `hasErrors = false` with empty output, regardless of
the configured command list. Only with the gate enabled does each configured
command run (capturing its combined output), and then a failing command forces
`hasErrors = true` with its labelled output among the collected parts. -/
theorem runValidation_commands_gated :
    (∀ (oracle : CmdOracle) (fs : FileSys) (edits : List EditItem)
        (cmds : Option (List String)),
      (runValidation oracle fs edits cmds).commandsRun = [] ∧
      (runValidation oracle fs edits cmds).hasErrors = false ∧
      (runValidation oracle fs edits cmds).output = "") ∧
    (∀ (oracle : CmdOracle) (fs : FileSys) (edits : List EditItem)
        (cs : List String) (c : String),
      edits ≠ [] → c ∈ cs → (oracle c).failed = true →
      (runValidationGen true oracle fs edits (some cs)).commandsRun = cs ∧
      (runValidationGen true oracle fs edits (some cs)).hasErrors = true ∧
      ("--- " ++ c ++ " ---\n" ++ (oracle c).output) ∈
        (runValidationGen true oracle fs edits (some cs)).parts) := by
  constructor
  · intro oracle fs edits cmds
    unfold runValidation runValidationGen ENABLE_VALIDATION_COMMANDS
    by_cases h : edits.isEmpty
    · rw [if_pos h]; exact ⟨rfl, rfl, rfl⟩
    · rw [if_neg h]
      cases cmds with
      | none => exact ⟨rfl, rfl, rfl⟩
      | some cs =>
        dsimp only
        rw [Bool.and_false]
        exact ⟨rfl, rfl, rfl⟩
  · intro oracle fs edits cs c hedits hc hfail
    have hemp : edits.isEmpty = false := by
      cases edits with
      | nil => exact absurd rfl hedits
      | cons _ _ => rfl
    have hcs : cs.isEmpty = false := by
      cases cs with
      | nil => exact absurd hc (List.not_mem_nil c)
      | cons _ _ => rfl
    unfold runValidationGen
    rw [hemp]
    dsimp only
    rw [hcs]
    refine ⟨runCommandLoop_ran oracle cs, ?_, ?_⟩
    · exact runCommandLoop_hasErrors_of_failed oracle cs c hc hfail
    · exact runCommandLoop_part_of_failed oracle cs c hc hfail

/-- C7 counterexample: with the shipped gate, a call with one configured
command and an oracle on which that command fails still runs zero commands
and reports `hasErrors = false`, contrary to the claim. -/
theorem runValidation_commands_counterexample :
    (runValidation (fun _ => ⟨"error: boom", true⟩) [("a.ts", "old")]
        [⟨"a.ts", "new"⟩] (some ["npm run lint"])).commandsRun = [] ∧
    (runValidation (fun _ => ⟨"error: boom", true⟩) [("a.ts", "old")]
        [⟨"a.ts", "new"⟩] (some ["npm run lint"])).hasErrors = false := by
  constructor
  · rfl
  · rfl

theorem runValidation_commands_gated_witness :
    (runValidationGen true (fun _ => ⟨"error: boom", true⟩) [("a.ts", "old")]
        [⟨"a.ts", "new"⟩] (some ["npm run lint"])).hasErrors = true :=
  ((runValidation_commands_gated.2 (fun _ => ⟨"error: boom", true⟩) [("a.ts", "old")]
      [⟨"a.ts", "new"⟩] ["npm run lint"] "npm run lint"
      (by decide) (List.mem_cons_self _ _) rfl).2).1

/-! ## Agent loop — `chatWithTools`

The LLM endpoint is an oracle from the accumulated message list to an
optional response (`none` models a transport/parse failure, the source's
null response); tool execution is an oracle from a tool call to its textual
result (`executeTool` wraps every throw into an error string, so it is
total). The abort signal is modelled as a constant: when it is set the
round-start check returns before anything else happens, so the mid-round
checks collapse into it. The config is assumed enabled (the disabled path
returns `content = null` before the loop starts). The result is instrumented
with the final message list and the number of LLM calls made. -/

inductive Role
  | system
  | user
  | assistant
  | tool
deriving DecidableEq, Repr

structure ToolCall where
  id : String
  name : String
  arguments : String
deriving DecidableEq, Repr

structure LLMMessage where
  role : Role
  content : Option String
  tool_calls : List ToolCall
  tool_call_id : Option String
deriving DecidableEq, Repr

structure LLMUsage where
  prompt_tokens : Nat
  completion_tokens : Nat
deriving DecidableEq, Repr

structure LLMResponse where
  content : Option String
  tool_calls : List ToolCall
  usage : Option LLMUsage
deriving DecidableEq, Repr

abbrev LLMOracle := List LLMMessage → Option LLMResponse

abbrev ToolExec := ToolCall → String

structure ChatResult where
  content : Option String
  usage : Option LLMUsage
  toolsUsed : List String
  finalMessages : List LLMMessage
  llmCalls : Nat
deriving DecidableEq, Repr

def MAX_TOOL_ROUNDS : Nat := 20

/-- JS truthiness of `m.content` (a string is truthy iff non-empty). -/
def truthyContent : Option String → Bool
  | some s => s != ""
  | none => false

/-- `loop.filter((m) => m.role === 'assistant' && m.content).pop()` —
the last assistant-authored message with truthy content. -/
def lastAssistantMessage (msgs : List LLMMessage) : Option LLMMessage :=
  (msgs.filter (fun m => m.role == Role.assistant && truthyContent m.content)).getLast?

/-- The inner `for (const tc of response.tool_calls)` loop: execute each call
sequentially, record its name, append a tool-role result message. -/
def execToolCalls (exec : ToolExec) :
    List ToolCall → List LLMMessage → List String → List LLMMessage × List String
  | [], loop, toolsUsed => (loop, toolsUsed)
  | tc :: rest, loop, toolsUsed =>
    let content := exec tc
    execToolCalls exec rest
      (loop ++ [⟨Role.tool, some content, [], some tc.id⟩])
      (toolsUsed ++ [tc.name])

/-- The `for (let round = 0; round < MAX_TOOL_ROUNDS; round++)` loop,
fuel = rounds remaining. `calls` counts LLM calls made so far. -/
def chatRounds (llm : LLMOracle) (exec : ToolExec) (aborted : Bool) :
    Nat → List LLMMessage → List String → Nat → ChatResult
  | 0, loop, toolsUsed, calls =>
    ⟨(lastAssistantMessage loop).bind (·.content), none, toolsUsed, loop, calls⟩
  | fuel + 1, loop, toolsUsed, calls =>
    if aborted then ⟨none, none, toolsUsed, loop, calls⟩
    else
      match llm loop with
      | none => ⟨none, none, toolsUsed, loop, calls + 1⟩
      | some resp =>
        if resp.tool_calls.isEmpty then
          ⟨resp.content, resp.usage, toolsUsed, loop, calls + 1⟩
        else
          let loop1 := loop ++ [⟨Role.assistant, resp.content, resp.tool_calls, none⟩]
          let stepped := execToolCalls exec resp.tool_calls loop1 toolsUsed
          chatRounds llm exec aborted fuel stepped.1 stepped.2 (calls + 1)

/-- `chatWithTools(messages, workspaceUri, options)`. -/
def chatWithTools (llm : LLMOracle) (exec : ToolExec) (messages : List LLMMessage)
    (aborted : Bool) : ChatResult :=
  chatRounds llm exec aborted MAX_TOOL_ROUNDS messages [] 0

/-! ### Agent loop: termination and round cap (C2) -/

theorem chatRounds_calls_le (llm : LLMOracle) (exec : ToolExec) (aborted : Bool) :
    ∀ (fuel : Nat) (loop : List LLMMessage) (toolsUsed : List String) (calls : Nat),
      (chatRounds llm exec aborted fuel loop toolsUsed calls).llmCalls ≤ calls + fuel := by
  intro fuel
  induction fuel with
  | zero => intro loop toolsUsed calls; exact Nat.le_refl _
  | succ n ih =>
    intro loop toolsUsed calls
    show (chatRounds llm exec aborted (n + 1) loop toolsUsed calls).llmCalls ≤ calls + (n + 1)
    unfold chatRounds
    by_cases ha : aborted
    · rw [if_pos ha]; exact Nat.le_add_right _ _
    · rw [if_neg ha]
      cases llm loop with
      | none => exact Nat.add_le_add_left (Nat.one_le_iff_ne_zero.mpr (Nat.succ_ne_zero n)) calls
      | some resp =>
        dsimp only
        by_cases htc : resp.tool_calls.isEmpty
        · rw [if_pos htc]
          exact Nat.add_le_add_left (Nat.one_le_iff_ne_zero.mpr (Nat.succ_ne_zero n)) calls
        · rw [if_neg htc]
          calc (chatRounds llm exec aborted n _ _ (calls + 1)).llmCalls
              ≤ (calls + 1) + n := ih _ _ _
            _ = calls + (n + 1) := by omega

theorem chatRounds_cap (llm : LLMOracle) (exec : ToolExec)
    (h : ∀ ms, ∃ r, llm ms = some r ∧ r.tool_calls ≠ []) :
    ∀ (fuel : Nat) (loop : List LLMMessage) (toolsUsed : List String) (calls : Nat),
      (chatRounds llm exec false fuel loop toolsUsed calls).llmCalls = calls + fuel ∧
      (chatRounds llm exec false fuel loop toolsUsed calls).content =
        (lastAssistantMessage
          (chatRounds llm exec false fuel loop toolsUsed calls).finalMessages).bind
          (·.content) := by
  intro fuel
  induction fuel with
  | zero => intro loop toolsUsed calls; exact ⟨rfl, rfl⟩
  | succ n ih =>
    intro loop toolsUsed calls
    obtain ⟨r, hr, htc⟩ := h loop
    have htc' : r.tool_calls.isEmpty = false := by
      cases hcs : r.tool_calls with
      | nil => exact absurd hcs htc
      | cons _ _ => rfl
    unfold chatRounds
    rw [if_neg (by exact Bool.false_ne_true), hr]
    dsimp only
    rw [htc']
    show (chatRounds llm exec false n _ _ (calls + 1)).llmCalls = calls + (n + 1) ∧ _
    constructor
    · rw [(ih _ _ _).1]; omega
    · exact (ih _ _ _).2

/-- C2: against any LLM double that answers every round with at least one
tool call, `chatWithTools` makes exactly `MAX_TOOL_ROUNDS = 20` LLM calls
(and in general never more than 20), terminates, and its result content is
the last assistant-authored truthy content in the accumulated message list
(null when there is none) rather than an error. -/
theorem chatWithTools_round_cap (llm : LLMOracle) (exec : ToolExec)
    (messages : List LLMMessage)
    (h : ∀ ms, ∃ r, llm ms = some r ∧ r.tool_calls ≠ []) :
    (∀ (llm' : LLMOracle) (aborted : Bool),
      (chatWithTools llm' exec messages aborted).llmCalls ≤ MAX_TOOL_ROUNDS) ∧
    (chatWithTools llm exec messages false).llmCalls = MAX_TOOL_ROUNDS ∧
    (chatWithTools llm exec messages false).content =
      (lastAssistantMessage (chatWithTools llm exec messages false).finalMessages).bind
        (·.content) := by
  refine ⟨fun llm' aborted => ?_, ?_, ?_⟩
  · have := chatRounds_calls_le llm' exec aborted MAX_TOOL_ROUNDS messages [] 0
    simpa using this
  · have := (chatRounds_cap llm exec h MAX_TOOL_ROUNDS messages [] 0).1
    simpa using this
  · exact (chatRounds_cap llm exec h MAX_TOOL_ROUNDS messages [] 0).2

/-- A mocked LLM that always requests one tool call and never authors content. -/
def alwaysToolLLM : LLMOracle :=
  fun _ => some ⟨none, [⟨"call-1", "search_files", "query"⟩], none⟩

def echoToolExec : ToolExec := fun tc => "result of " ++ tc.name

theorem chatWithTools_round_cap_witness :
    (chatWithTools alwaysToolLLM echoToolExec [⟨Role.user, some "hi", [], none⟩]
        false).llmCalls = MAX_TOOL_ROUNDS :=
  (chatWithTools_round_cap alwaysToolLLM echoToolExec [⟨Role.user, some "hi", [], none⟩]
    (fun _ => ⟨⟨none, [⟨"call-1", "search_files", "query"⟩], none⟩, rfl, by decide⟩)).2.1

/-! ## Index data model — `src/context/indexer/types.ts` (shape as used by
`index.ts` and `pattern-graph.ts`, documented in the spec's data model) -/

structure EntryMetadata where
  lines : Nat
  complexity : ℚ
  lastModified : Nat
deriving DecidableEq, Repr

structure FileIndexEntry where
  file : String
  relativePath : String
  pattern : String
  domain : String
  imports : List String
  exports : List String
  functions : List String
  classes : List String
  interfaces : List String
  typeAliases : List String
  hooks : List String
  tags : List String
  contentHash : String
  metadata : EntryMetadata
deriving DecidableEq, Repr

structure IndexMetadata where
  projectHash : String
  lastScan : Nat
  fileCount : Nat
deriving DecidableEq, Repr

structure IndexCache where
  version : String
  timestamp : Nat
  files : AList FileIndexEntry
  metadata : IndexMetadata
deriving DecidableEq, Repr

structure ScannedFile where
  path : String
  relativePath : String
  content : String
  contentHash : String
  lastModified : Nat
deriving DecidableEq, Repr

/-! ## Usefulness filter — `isUsefulEntry` in `src/context/indexer/index.ts` -/

def isUsefulEntry (entry : FileIndexEntry) : Bool :=
  if entry.metadata.lines < 3 then false
  else if entry.pattern == "test" then false
  else
    let hasSymbols :=
      !entry.imports.isEmpty || !entry.exports.isEmpty || !entry.functions.isEmpty ||
        !entry.classes.isEmpty || !entry.hooks.isEmpty
    if entry.pattern == "other" && !hasSymbols && decide (entry.metadata.lines < 15) then false
    else true

/-! ### Usefulness filter (C6) -/

/-- A concrete entry builder used by the C6 statements. -/
def mkPlainEntry (pattern : String) (lines : Nat) (exports : List String) : FileIndexEntry :=
  ⟨"f", "f", pattern, "global", [], exports, [], [], [], [], [], [], "h", ⟨lines, 0, 0⟩⟩

/-- C6 counterexample: a 20-line file tagged `"other"` with zero extracted
symbols is *included* by `isUsefulEntry` (the zero-symbol drop rule only
applies below 15 lines), contradicting the claim that it is excluded. -/
theorem isUsefulEntry_counterexample :
    isUsefulEntry (mkPlainEntry "other" 20 []) = true := by decide

/-- C6 (amended): the usefulness filter excludes any entry with fewer than
3 lines; for an `"other"`-tagged entry with zero extracted symbols it keeps
the entry exactly when it has at least 15 lines (so a 14-line one is dropped
and a 20-line one kept); and an `"other"`-tagged entry with at least 3 lines
and at least one export is always kept. -/
theorem isUsefulEntry_spec :
    (∀ e : FileIndexEntry, e.metadata.lines < 3 → isUsefulEntry e = false) ∧
    (∀ e : FileIndexEntry, e.pattern = "other" →
      e.imports = [] → e.exports = [] → e.functions = [] → e.classes = [] → e.hooks = [] →
      (isUsefulEntry e = true ↔ 15 ≤ e.metadata.lines)) ∧
    (∀ e : FileIndexEntry, e.pattern = "other" → 3 ≤ e.metadata.lines →
      e.exports ≠ [] → isUsefulEntry e = true) := by
  refine ⟨?_, ?_, ?_⟩
  · intro e h
    unfold isUsefulEntry
    rw [if_pos h]
  · intro e hp hi he hf hc hh
    unfold isUsefulEntry
    rw [hp, hi, he, hf, hc, hh]
    constructor
    · intro h
      by_contra hlt
      push_neg at hlt
      by_cases h3 : e.metadata.lines < 3
      · rw [if_pos h3] at h
        exact Bool.false_ne_true h
      · rw [if_neg h3] at h
        simp [hlt] at h
    · intro h
      rw [if_neg (by omega), if_neg (by decide)]
      simp [Nat.not_lt.mpr h]
  · intro e hp hl he
    unfold isUsefulEntry
    rw [hp]
    have hne : e.exports.isEmpty = false := by
      cases hx : e.exports with
      | nil => exact absurd hx he
      | cons _ _ => rfl
    rw [if_neg (by omega), if_neg (by decide)]
    simp [hne]

theorem isUsefulEntry_spec_witness :
    isUsefulEntry (mkPlainEntry "page" 2 []) = false ∧
    (isUsefulEntry (mkPlainEntry "other" 14 []) = true ↔ 15 ≤ 14) ∧
    isUsefulEntry (mkPlainEntry "other" 20 ["f"]) = true :=
  ⟨isUsefulEntry_spec.1 (mkPlainEntry "page" 2 []) (by decide),
   (isUsefulEntry_spec.2.1 (mkPlainEntry "other" 14 []) rfl rfl rfl rfl rfl rfl),
   isUsefulEntry_spec.2.2 (mkPlainEntry "other" 20 ["f"]) rfl (by decide) (by decide)⟩

/-! ## Pattern graph builder — `src/context/indexer/pattern-graph.ts` -/

def MAX_FILES_PER_PATTERN : Nat := 30

structure GraphNode where
  file : String
  pattern : String
  domain : String
  imports : List String
  exports : List String
deriving DecidableEq, Repr

/-- `{ from, to, weight }` (`from` is reserved in Lean). -/
structure PatternRelation where
  fromPat : String
  toPat : String
  weight : ℚ
deriving DecidableEq, Repr

structure FileRelations where
  relatedFiles : List String
  relatedPatterns : List String
deriving DecidableEq, Repr

structure GraphMeta where
  projectRoot : String
  generatedAt : String
  version : String
deriving DecidableEq, Repr

structure PatternGraphData where
  meta : GraphMeta
  patterns : AList (AList ℚ)
  filesByPattern : AList (List String)
  examples : AList String
  files : AList FileRelations
deriving DecidableEq, Repr

/-- JS `Set.add` on an insertion-ordered set modelled as a duplicate-free list. -/
def setAdd (l : List String) (x : String) : List String :=
  if l.contains x then l else l ++ [x]

/-- `new Set(list)` — dedup keeping first occurrences, in order. -/
def setOfList (l : List String) : List String :=
  l.foldl setAdd []

/-- ASCII lower-casing (`s.toLowerCase()`; paths in scope are ASCII). -/
def jsToLower (s : String) : String :=
  String.mk (s.data.map Char.toLower)

/-- `s.includes(sub)`. -/
def jsIncludes (s sub : String) : Bool :=
  (List.range (s.data.length + 1)).any
    (fun i => ((s.data.drop i).take sub.data.length) == sub.data)

/-- `s.endsWith(suffix)`. -/
def jsEndsWith (s suffix : String) : Bool :=
  (s.data.reverse.take suffix.data.length) == suffix.data.reverse

/-- `s.startsWith(p)`. -/
def jsStartsWith (s p : String) : Bool :=
  (s.data.take p.data.length) == p.data

/-- `path.replace(/^.*[/\\]/, '')` — the text after the last `/` or `\`
separator (the regex `.` never matches a newline; paths in scope have none). -/
def jsBasenameRaw (path : String) : String :=
  String.mk ((path.data.reverse.takeWhile (fun c => c ≠ '/' ∧ c ≠ '\\')).reverse)

/-- `basename(path, ext)` of the source: strip the directory part, then the
extension when it matches case-insensitively. -/
def basename (path ext : String) : String :=
  let name := jsBasenameRaw path
  if ext ≠ "" && jsEndsWith (jsToLower name) (jsToLower ext) then
    String.mk (name.data.take (name.data.length - ext.data.length))
  else name

/-- `getExt(path)` — `path.match(/\.(tsx?|jsx?|vue|go|py)$/i)`, returning the
matched text (original case) or `''`. -/
def getExt (path : String) : String :=
  let lower := jsToLower path
  let cands := [".tsx", ".jsx", ".vue", ".ts", ".js", ".go", ".py"]
  match cands.find? (fun c => jsEndsWith lower c) with
  | some c => String.mk (path.data.drop (path.data.length - c.data.length))
  | none => ""

/-- `isGeneratedOrPb(relativePath)`. -/
def isGeneratedOrPb (relativePath : String) : Bool :=
  let p := normSlash relativePath
  jsIncludes p "/pb/" || jsIncludes p ".pb."

/-- `importerFile.replace(/\\, '/').replace(/\/[^/]+$/, '')` — drop the final
path segment when the path ends in `/<non-empty segment>`. -/
def stripLastSegment (s : String) : String :=
  let l := s.data
  let tail := l.reverse.takeWhile (fun c => c ≠ '/')
  if tail.length = 0 ∨ tail.length = l.length then s
  else String.mk (l.take (l.length - tail.length - 1))

/-- `importPath.split('/').pop()?.replace(/\.\w+$/, '') ?? ''`. -/
def stripDotWordSuffix (s : String) : String :=
  let rev := s.data.reverse
  let w := rev.takeWhile (fun c => c.isAlphanum || c = '_')
  if w.length > 0 && (rev.drop w.length).head? == some '.' then
    String.mk (s.data.take (s.data.length - w.length - 1))
  else s

/-- `resolveImportToFile(importPath, importerFile, fileSet)`: relative
specifiers are resolved by `.`/`..` navigation from the importer's directory
and probed against a fixed candidate list; bare specifiers fall back to a
case-insensitive same-basename scan over the file set. -/
def resolveImportToFile (importPath importerFile : String)
    (fileSet : List String) : Option String :=
  if jsStartsWith importPath "." then
    let importerDir := stripLastSegment (normSlash importerFile)
    let parts := (jsSplitOn (normSlash importPath) "/").foldl
      (fun ps seg =>
        if seg = ".." then ps.dropLast
        else if seg ≠ "." then ps ++ [seg]
        else ps)
      (jsSplitOn importerDir "/")
    let resolved := joinSep "/" parts
    let candidates :=
      [resolved,
       resolved ++ ".ts", resolved ++ ".tsx", resolved ++ ".js",
       resolved ++ ".jsx", resolved ++ ".vue",
       resolved ++ "/index.ts", resolved ++ "/index.tsx",
       resolved ++ "/index.js", resolved ++ "/index.jsx"]
    candidates.find? (fun c => fileSet.contains c)
  else
    let importBase := stripDotWordSuffix (((jsSplitOn importPath "/").getLast?).getD "")
    if importBase = "" then none
    else
      let lower := jsToLower importBase
      fileSet.find? (fun f => jsToLower (basename f (getExt f)) == lower)

/-- `buildNodes(index)` — `Object.values` in insertion order, excluding
generated/protobuf files. -/
def buildNodes (index : AList FileIndexEntry) : List GraphNode :=
  ((index.map (·.2)).filter (fun e => !isGeneratedOrPb e.relativePath)).map
    (fun e => ⟨e.relativePath, e.pattern, e.domain, e.imports, e.exports⟩)

/-- One import of one node inside `detectRelations`' main loop: resolve it,
extend the node's related-file set, and bump the directed pattern-relation
counter when the target's pattern differs. -/
def importStep (fileSet : List String) (nodeByFile : AList GraphNode)
    (node : GraphNode) (acc : AList ℚ × List String) (imp : String) :
    AList ℚ × List String :=
  match resolveImportToFile imp node.file fileSet with
  | none => acc
  | some target =>
    if target = node.file then acc
    else
      let related := setAdd acc.2 target
      let rm :=
        match alGet nodeByFile target with
        | some targetNode =>
          if targetNode.pattern ≠ node.pattern then
            let key := node.pattern ++ "->" ++ targetNode.pattern
            alSet acc.1 key ((alGet acc.1 key).getD 0 + 1)
          else acc.1
        | none => acc.1
      (rm, related)

/-- One node's import loop inside `detectRelations`: accumulate the
pattern-relation counter map and the node's related-file set. -/
def processNodeImports (fileSet : List String) (nodeByFile : AList GraphNode)
    (node : GraphNode) (rm0 : AList ℚ) : AList ℚ × List String :=
  node.imports.foldl (importStep fileSet nodeByFile node) (rm0, [])

/-- One node's same-domain bonus loop: the first 10 same-domain,
different-pattern peers each add `0.3` to the directed relation. -/
def processNodeDomain (nodes : List GraphNode) (node : GraphNode)
    (rm0 : AList ℚ) : AList ℚ :=
  let sameDomain := nodes.filter
    (fun n => n.domain == node.domain && n.domain != "global" &&
      n.file != node.file && n.pattern != node.pattern)
  (sameDomain.take 10).foldl
    (fun rm d =>
      let key := node.pattern ++ "->" ++ d.pattern
      alSet rm key ((alGet rm key).getD 0 + 3/10))
    rm0

/-- The relation-counter map accumulated by `detectRelations`' main loop,
plus the file-relation map. -/
def detectRelationsLoop (nodes : List GraphNode) (fileSet : List String)
    (nodeByFile : AList GraphNode) : AList ℚ × AList (List String) :=
  nodes.foldl
    (fun (acc : AList ℚ × AList (List String)) node =>
      let step := processNodeImports fileSet nodeByFile node acc.1
      let rm := processNodeDomain nodes node step.1
      let fr := if step.2 ≠ [] then alSet acc.2 node.file step.2 else acc.2
      (rm, fr))
    ([], [])

/-- `const [from, to] = key.split('->'); if (from && to) push({from, to, weight})`. -/
def relationsOfMap (rm : AList ℚ) : List PatternRelation :=
  rm.filterMap (fun e =>
    match jsSplitOn e.1 "->" with
    | f :: t :: _ => if f ≠ "" ∧ t ≠ "" then some ⟨f, t, e.2⟩ else none
    | _ => none)

/-- `detectRelations(nodes, fileSet, nodeByFile)`. -/
def detectRelations (nodes : List GraphNode) (fileSet : List String)
    (nodeByFile : AList GraphNode) : List PatternRelation × AList (List String) :=
  let loopRes := detectRelationsLoop nodes fileSet nodeByFile
  (relationsOfMap loopRes.1, loopRes.2)

/-- Accumulation of `graph.patterns[from][to] += weight` over the relation list. -/
def accumulatePatternMap (rels : List PatternRelation) : AList (AList ℚ) :=
  rels.foldl
    (fun g rel =>
      let inner := (alGet g rel.fromPat).getD []
      alSet g rel.fromPat (alSet inner rel.toPat ((alGet inner rel.toPat).getD 0 + rel.weight)))
    []

/-- `if (!symmetric[p]) symmetric[p] = {}`. -/
def ensureKey (s : AList (AList ℚ)) (k : String) : AList (AList ℚ) :=
  if alHasKey s k then s else alSet s k []

/-- `s[a][b] = w` (materializing `s[a]` when absent), the assignment shape
used on both sides of the symmetrization loop. -/
def updEdge (s : AList (AList ℚ)) (a b : String) (w : ℚ) : AList (AList ℚ) :=
  alSet s a (alSet ((alGet s a).getD []) b w)

/-- One inner step of the symmetrization loop for source `pattern` and a
directed edge `(toKey, v)`: copy the forward weight, materialize the reverse
node, then add `0.8·v` onto the reverse edge. -/
def symStep (pattern : String) (s : AList (AList ℚ)) (e2 : String × ℚ) :
    AList (AList ℚ) :=
  let s1 := updEdge s pattern e2.1 e2.2
  let s2 := ensureKey s1 e2.1
  updEdge s2 e2.1 pattern
    ((alGet ((alGet s2 e2.1).getD []) pattern).getD 0 + e2.2 * (4/5))

/-- The symmetrization loop: copy each directed weight and add `0.8×` of it
onto the reverse edge (a later-processed raw reverse edge overwrites the
mirrored contribution, exactly as the source's plain assignment does). -/
def symmetrize (g : AList (AList ℚ)) : AList (AList ℚ) :=
  g.foldl (fun s entry => entry.2.foldl (symStep entry.1) (ensureKey s entry.1)) []

/-- `Math.round` (round half towards `+∞`). -/
def jsRound (q : ℚ) : ℤ :=
  Int.floor (q + 1/2)

/-- The 0.05 pruning floor. -/
def minWeight : ℚ := 1/20

/-- Per-pattern max outgoing weight (`Math.max` fold starting at 0). -/
def maxWeight (m : AList ℚ) : ℚ :=
  m.foldl (fun acc e => max acc e.2) 0

/-- `const w = Math.round((v/max)*100)/100` of the normalization loop. -/
def normWeight (mx v : ℚ) : ℚ :=
  ((jsRound (v / mx * 100) : ℚ)) / 100

/-- One edge of the normalization loop: drop it below the floor, otherwise
store `Math.min(1, w)`. -/
def normEntryInner (mx : ℚ) (e : String × ℚ) : Option (String × ℚ) :=
  if normWeight mx e.2 < minWeight then none
  else some (e.1, min 1 (normWeight mx e.2))

/-- Normalize one pattern's outgoing edges by `mx`: round to 2 decimals,
drop everything below the floor, clamp to 1. -/
def normalizeInner (m : AList ℚ) (mx : ℚ) : AList ℚ :=
  m.filterMap (normEntryInner mx)

/-- One pattern of the normalization pass: patterns whose max is 0 or whose
edges all fall below the floor are deleted. -/
def normEntryOuter (entry : String × AList ℚ) : Option (String × AList ℚ) :=
  if maxWeight entry.2 = 0 then none
  else if (normalizeInner entry.2 (maxWeight entry.2)).isEmpty then none
  else some (entry.1, normalizeInner entry.2 (maxWeight entry.2))

/-- The normalization pass (the source collects `emptyPatterns` and deletes
them after the loop, which preserves the order of the survivors). -/
def normalizePatterns (g : AList (AList ℚ)) : AList (AList ℚ) :=
  g.filterMap normEntryOuter

/-- The raw (pre-symmetrization) pattern map of `buildGraphFromIndex`. -/
def rawPatternsOf (index : AList FileIndexEntry) : AList (AList ℚ) :=
  let nodes := buildNodes index
  let fileSet := setOfList (nodes.map (·.file))
  let nodeByFile := nodes.foldl (fun m n => alSet m n.file n) []
  accumulatePatternMap (detectRelations nodes fileSet nodeByFile).1

/-- The normalized symmetric pattern map of `buildGraphFromIndex`. -/
def buildGraphPatterns (index : AList FileIndexEntry) : AList (AList ℚ) :=
  normalizePatterns (symmetrize (rawPatternsOf index))

/-- `filesByPattern` grouping with the per-pattern cap (the source first
materializes the key, then pushes only below the cap). -/
def groupFilesByPattern (nodes : List GraphNode) : AList (List String) :=
  nodes.foldl
    (fun fbp node =>
      let fbp := if alHasKey fbp node.pattern then fbp else alSet fbp node.pattern []
      let cur := (alGet fbp node.pattern).getD []
      if cur.length < MAX_FILES_PER_PATTERN then
        alSet fbp node.pattern (cur ++ [node.file])
      else fbp)
    []

def PATTERN_EXAMPLES : AList String :=
  [("page", "Компонент страницы, подключающий сервисы, отображающий данные и использующий компоненты."),
   ("component", "UI-компонент с пропсами, событиями и логикой отображения."),
   ("service", "API-обертка с методами для работы с бэкендом (get, post, put, delete)."),
   ("api", "API-клиент или конфигурация для работы с внешними сервисами."),
   ("hook", "Кастомный хук для переиспользования логики (useState, useEffect и т.д.)."),
   ("store", "Управление состоянием приложения (Vuex, Pinia, Redux и т.д.)."),
   ("utils", "Утилитарные функции для работы с данными, форматированием и т.д."),
   ("form", "Компонент формы с валидацией и обработкой данных."),
   ("table", "Компонент таблицы для отображения списков данных."),
   ("config", "Конфигурационные файлы и настройки."),
   ("settings", "Настройки и параметры компонентов или страниц."),
   ("query", "Работа с query-параметрами и фильтрацией."),
   ("handler", "Обработчик HTTP/запросов (Go handler, Python view и т.д.)."),
   ("model", "Модель данных, сущность БД, DTO."),
   ("repository", "Слой доступа к данным (репозиторий)."),
   ("resolver", "GraphQL-резолвер (Query, Mutation, Subscription)."),
   ("middleware", "Middleware, Guard или Interceptor."),
   ("cmd", "Точка входа приложения (Go cmd, main)."),
   ("internal", "Внутренние пакеты/модули (Go internal)."),
   ("pkg", "Переиспользуемые пакеты (Go pkg)."),
   ("migrations", "Миграции БД."),
   ("test", "Тестовый файл."),
   ("other", "Прочие файлы проекта.")]

/-- The file-level relations section of `buildGraphFromIndex`. -/
def buildFileRelations (nodeByFile : AList GraphNode)
    (fileRelations : AList (List String)) : AList FileRelations :=
  fileRelations.foldl
    (fun fl fe =>
      let relatedPatterns := fe.2.foldl
        (fun rp r =>
          match alGet nodeByFile r with
          | some n => setAdd rp n.pattern
          | none => rp)
        []
      alSet fl fe.1 ⟨fe.2.take 15, relatedPatterns⟩)
    []

/-- `buildGraphFromIndex(index, workspacePath)`; `new Date().toISOString()`
is the parameter `nowIso`. -/
def buildGraphFromIndex (index : AList FileIndexEntry) (workspacePath : String)
    (nowIso : String) : PatternGraphData :=
  let nodes := buildNodes index
  let fileSet := setOfList (nodes.map (·.file))
  let nodeByFile := nodes.foldl (fun m n => alSet m n.file n) []
  let detected := detectRelations nodes fileSet nodeByFile
  let examples := (setOfList (nodes.map (·.pattern))).foldl
    (fun ex p => alSet ex p ((alGet PATTERN_EXAMPLES p).getD
      ((alGet PATTERN_EXAMPLES "other").getD "")))
    []
  let filesByPattern := groupFilesByPattern nodes
  let patterns := normalizePatterns (symmetrize (accumulatePatternMap detected.1))
  let files := buildFileRelations nodeByFile detected.2
  ⟨⟨workspacePath, nowIso, "2.0"⟩, patterns, filesByPattern, examples, files⟩

/-- The affected set of `updateGraphForFiles`: the changed paths plus every
file importing a changed file (one hop). -/
def affectedFiles (allNodes : List GraphNode) (fileSet : List String)
    (changedRelPaths : List String) : List String :=
  allNodes.foldl
    (fun aff node =>
      node.imports.foldl
        (fun aff imp =>
          match resolveImportToFile imp node.file fileSet with
          | some target =>
            if changedRelPaths.contains target then setAdd aff node.file else aff
          | none => aff)
        aff)
    (setOfList changedRelPaths)

/-- The patterns of affected files still present in the index
(`.map(rel => fullIndex[rel]?.pattern).filter(Boolean)`, as a set). -/
def affectedPatternsOf (fullIndex : AList FileIndexEntry)
    (affected : List String) : List String :=
  setOfList ((affected.filterMap (fun rel => (alGet fullIndex rel).map (·.pattern))).filter
    (fun p => p ≠ ""))

/-- `updateGraphForFiles(workspaceUri, fullIndex, changedRelPaths)` as a pure
function of the previously persisted graph (`none` models a missing or
unparsable graph file, which falls back to a full `buildAndSaveGraph`).
The returned `Nat` counts graph-file writes (always exactly one).
The source calls `detectRelations` twice with identical arguments and
destructures a different component each time; the embedding calls it once.
Its inline delete-while-iterating normalization is the same
`normalizePatterns` pass as in `buildGraphFromIndex` (deleting the visited
key or the current pattern preserves the survivors' order). -/
def updateGraphForFiles (existingGraph : Option PatternGraphData)
    (fullIndex : AList FileIndexEntry) (changedRelPaths : List String)
    (workspacePath nowIso : String) : PatternGraphData × Nat :=
  match existingGraph with
  | none => (buildGraphFromIndex fullIndex workspacePath nowIso, 1)
  | some eg =>
    let allNodes := buildNodes fullIndex
    let fileSet := setOfList (allNodes.map (·.file))
    let nodeByFile := allNodes.foldl (fun m n => alSet m n.file n) []
    let affected := affectedFiles allNodes fileSet changedRelPaths
    let detected := detectRelations allNodes fileSet nodeByFile
    let files1 := affected.foldl (fun fl rel => alErase fl rel) eg.files
    let files2 := affected.foldl
      (fun fl rel =>
        if (alGet fullIndex rel).isNone then fl
        else
          match alGet detected.2 rel with
          | some related =>
            let relatedPatterns := related.foldl
              (fun rp r =>
                match alGet nodeByFile r with
                | some n => setAdd rp n.pattern
                | none => rp)
              []
            alSet fl rel ⟨related.take 15, relatedPatterns⟩
          | none => fl)
      files1
    let newFilesByPattern := groupFilesByPattern allNodes
    let affectedPatterns := affectedPatternsOf fullIndex affected
    let patterns :=
      if affectedPatterns ≠ [] then
        normalizePatterns (symmetrize (accumulatePatternMap detected.1))
      else eg.patterns
    (⟨⟨eg.meta.projectRoot, nowIso, eg.meta.version⟩,
      patterns, newFilesByPattern, eg.examples, files2⟩, 1)

/-! ### Association-list support lemmas for the graph proofs -/

/-- Nested lookup `g[A]?.[B]`. -/
def alGet2 (g : AList (AList α)) (a b : String) : Option α :=
  (alGet g a).bind (fun m => alGet m b)

theorem alGet_mem {α : Type} (m : AList α) (k : String) (v : α)
    (h : alGet m k = some v) : (k, v) ∈ m := by
  induction m with
  | nil => exact absurd h (by simp)
  | cons e rest ih =>
    rw [alGet_cons] at h
    by_cases hk : e.1 = k
    · rw [if_pos hk] at h
      obtain ⟨e1, e2⟩ := e
      simp only at hk h
      obtain rfl := hk
      obtain rfl := Option.some_injective _ h
      exact List.mem_cons_self _ _
    · rw [if_neg hk] at h
      exact List.mem_cons_of_mem e (ih h)

theorem alGet_eq_none_of_not_mem_keys {α : Type} (m : AList α) (k : String)
    (h : k ∉ alKeys m) : alGet m k = none := by
  induction m with
  | nil => rfl
  | cons e rest ih =>
    rw [alGet_cons, if_neg (fun he => h (by simp [alKeys, he]))]
    exact ih (fun hm => h (by simp only [alKeys, List.map_cons, List.mem_cons]; right; exact hm))

theorem mem_keys_of_alGet_some {α : Type} (m : AList α) (k : String) (v : α)
    (h : alGet m k = some v) : k ∈ alKeys m := by
  by_contra hk
  rw [alGet_eq_none_of_not_mem_keys m k hk] at h
  exact Option.noConfusion h

theorem alGet_of_mem_nodup {α : Type} (m : AList α) (k : String) (v : α)
    (hnd : (alKeys m).Nodup) (h : (k, v) ∈ m) : alGet m k = some v := by
  induction m with
  | nil => exact absurd h (List.not_mem_nil _)
  | cons e rest ih =>
    rw [alKeys, List.map_cons, List.nodup_cons] at hnd
    rcases List.mem_cons.mp h with he | hm
    · rw [← he, alGet_cons, if_pos rfl]
    · rw [alGet_cons]
      have hk : k ∈ alKeys rest := by
        exact List.mem_map_of_mem (·.1) hm
      rw [if_neg (fun he1 => hnd.1 (by rw [he1]; exact hk))]
      exact ih hnd.2 hm

theorem mem_alSet {α : Type} (m : AList α) (k : String) (v : α) (e : String × α)
    (h : e ∈ alSet m k v) : e = (k, v) ∨ e ∈ m := by
  induction m with
  | nil => simpa [alSet] using h
  | cons e0 rest ih =>
    unfold alSet at h
    by_cases hk : e0.1 = k
    · rw [if_pos (by simp [hk])] at h
      rcases List.mem_cons.mp h with h | h
      · exact Or.inl h
      · exact Or.inr (List.mem_cons_of_mem e0 h)
    · rw [if_neg (by simp [hk])] at h
      rcases List.mem_cons.mp h with h | h
      · exact Or.inr (h ▸ List.mem_cons_self e0 rest)
      · rcases ih h with h | h
        · exact Or.inl h
        · exact Or.inr (List.mem_cons_of_mem e0 h)

theorem alKeys_alSet {α : Type} (m : AList α) (k : String) (v : α) :
    alKeys (alSet m k v) = if k ∈ alKeys m then alKeys m else alKeys m ++ [k] := by
  induction m with
  | nil => simp [alSet, alKeys]
  | cons e rest ih =>
    unfold alSet
    by_cases hk : e.1 = k
    · rw [if_pos (by simp [hk])]
      rw [if_pos (by simp [alKeys, hk])]
      simp [alKeys, hk]
    · rw [if_neg (by simp [hk])]
      show e.1 :: alKeys (alSet rest k v) = _
      rw [ih]
      by_cases hm : k ∈ alKeys rest
      · rw [if_pos hm, if_pos (show k ∈ alKeys (e :: rest) from List.mem_cons_of_mem e.1 hm)]
        rfl
      · rw [if_neg hm, if_neg (by
          simp only [alKeys, List.map_cons, List.mem_cons]
          rintro (h | h)
          · exact hk h.symm
          · exact hm h)]
        rfl

theorem nodup_alKeys_alSet {α : Type} (m : AList α) (k : String) (v : α)
    (h : (alKeys m).Nodup) : (alKeys (alSet m k v)).Nodup := by
  rw [alKeys_alSet]
  by_cases hm : k ∈ alKeys m
  · rw [if_pos hm]; exact h
  · rw [if_neg hm]
    simpa [List.nodup_append] using ⟨h, hm⟩

theorem alGet_alSet_cases {α : Type} (m : AList α) (k q : String) (v w : α)
    (h : alGet (alSet m k v) q = some w) :
    (q = k ∧ w = v) ∨ (q ≠ k ∧ alGet m q = some w) := by
  by_cases hq : q = k
  · subst hq
    rw [alGet_alSet_self] at h
    exact Or.inl ⟨rfl, (Option.some_injective _ h).symm⟩
  · rw [alGet_alSet_ne m k q v hq] at h
    exact Or.inr ⟨hq, h⟩

/-- A generic fold invariant. -/
theorem foldl_inv {α σ : Type} {P : σ → Prop} (f : σ → α → σ) :
    ∀ (l : List α) (s : σ), P s → (∀ s a, a ∈ l → P s → P (f s a)) →
      P (l.foldl f s) := by
  intro l
  induction l with
  | nil => intro s h _; exact h
  | cons a rest ih =>
    intro s h hstep
    exact ih (f s a) (hstep s a (List.mem_cons_self a rest) h)
      (fun s b hb => hstep s b (List.mem_cons_of_mem a hb))

/-- Lookup through a key-preserving `filterMap`, positive case
(requires duplicate-free keys). -/
theorem alGet_filterMap_some {α β : Type} (f : String × α → Option (String × β))
    (hf : ∀ e r, f e = some r → r.1 = e.1) (m : AList α)
    (hnd : (alKeys m).Nodup) (k : String) (v : α) (h : alGet m k = some v) :
    alGet (m.filterMap f) k = (f (k, v)).map (·.2) := by
  induction m with
  | nil => exact absurd h (by simp)
  | cons e rest ih =>
    rw [alKeys, List.map_cons, List.nodup_cons] at hnd
    rw [alGet_cons] at h
    by_cases hk : e.1 = k
    · rw [if_pos hk] at h
      have he : e = (k, v) := by
        obtain ⟨e1, e2⟩ := e
        obtain rfl := hk
        obtain rfl := Option.some_injective _ h
        rfl
      subst he
      rw [List.filterMap_cons]
      cases hr : f (k, v) with
      | none =>
        rw [Option.map_none']
        have : ∀ x ∈ rest, x.1 ≠ k := by
          intro x hx hx1
          exact hnd.1 (hx1 ▸ List.mem_map_of_mem (·.1) hx)
        clear ih h hnd hr
        induction rest with
        | nil => rfl
        | cons e2 rest2 ih2 =>
          rw [List.filterMap_cons]
          cases hr2 : f e2 with
          | none => exact ih2 (fun x hx => this x (List.mem_cons_of_mem e2 hx))
          | some r2 =>
            rw [alGet_cons,
              if_neg (by rw [hf e2 r2 hr2]; exact this e2 (List.mem_cons_self _ _))]
            exact ih2 (fun x hx => this x (List.mem_cons_of_mem e2 hx))
      | some r =>
        rw [alGet_cons, if_pos (hf (k, v) r hr), Option.map_some']
    · rw [if_neg hk] at h
      rw [List.filterMap_cons]
      cases hr : f e with
      | none => exact ih hnd.2 h
      | some r =>
        rw [alGet_cons, if_neg (by rw [hf e r hr]; exact hk)]
        exact ih hnd.2 h

/-- Lookup through a key-preserving `filterMap`, absent case. -/
theorem alGet_filterMap_none {α β : Type} (f : String × α → Option (String × β))
    (hf : ∀ e r, f e = some r → r.1 = e.1) (m : AList α)
    (k : String) (h : alGet m k = none) : alGet (m.filterMap f) k = none := by
  induction m with
  | nil => rfl
  | cons e rest ih =>
    rw [alGet_cons] at h
    by_cases hk : e.1 = k
    · rw [if_pos hk] at h
      exact absurd h (by simp)
    · rw [if_neg hk] at h
      rw [List.filterMap_cons]
      cases hr : f e with
      | none => exact ih h
      | some r =>
        rw [alGet_cons, if_neg (by rw [hf e r hr]; exact hk)]
        exact ih h

/-! ### Invariants of the pattern-relation pipeline -/

/-- All stored weights of an inner map are positive. -/
def ValsPos (m : AList ℚ) : Prop := ∀ e ∈ m, (0 : ℚ) < e.2

/-- All stored weights of a nested map are positive. -/
def GraphPos (g : AList (AList ℚ)) : Prop := ∀ e ∈ g, ValsPos e.2

/-- Outer and inner key lists are duplicate-free. -/
def GraphND (g : AList (AList ℚ)) : Prop :=
  (alKeys g).Nodup ∧ ∀ e ∈ g, (alKeys e.2).Nodup

/-- The directed edge `a -> b` is present. -/
def present (g : AList (AList ℚ)) (a b : String) : Prop :=
  (alGet2 g a b).isSome = true

/-- Every present edge has a present reverse edge. -/
def PairSym (g : AList (AList ℚ)) : Prop :=
  ∀ a b, present g a b → present g b a

theorem valsPos_alSet_incr (m : AList ℚ) (k : String) (c : ℚ) (hc : 0 < c)
    (h : ValsPos m) : ValsPos (alSet m k ((alGet m k).getD 0 + c)) := by
  intro e he
  rcases mem_alSet _ _ _ _ he with rfl | hm
  · show (0 : ℚ) < (alGet m k).getD 0 + c
    cases hg : alGet m k with
    | none => simpa using hc
    | some v =>
      have hv := h _ (alGet_mem m k v hg)
      simp only [hg, Option.getD_some]
      exact add_pos hv hc
  · exact h e hm

theorem valsPos_importStep (fileSet : List String) (nodeByFile : AList GraphNode)
    (node : GraphNode) (acc : AList ℚ × List String) (imp : String)
    (hacc : ValsPos acc.1) :
    ValsPos (importStep fileSet nodeByFile node acc imp).1 := by
  unfold importStep
  split
  · exact hacc
  · split
    · exact hacc
    · dsimp only
      split
      · split
        · exact valsPos_alSet_incr _ _ _ (by norm_num) hacc
        · exact hacc
      · exact hacc

theorem valsPos_processNodeImports (fileSet : List String)
    (nodeByFile : AList GraphNode) (node : GraphNode) (rm0 : AList ℚ)
    (h : ValsPos rm0) :
    ValsPos (processNodeImports fileSet nodeByFile node rm0).1 := by
  unfold processNodeImports
  apply foldl_inv (P := fun (acc : AList ℚ × List String) => ValsPos acc.1) _ _ _ h
  intro acc imp _ hacc
  exact valsPos_importStep fileSet nodeByFile node acc imp hacc

theorem valsPos_processNodeDomain (nodes : List GraphNode) (node : GraphNode)
    (rm0 : AList ℚ) (h : ValsPos rm0) :
    ValsPos (processNodeDomain nodes node rm0) := by
  unfold processNodeDomain
  apply foldl_inv (P := fun rm => ValsPos rm) _ _ _ h
  intro rm d _ hrm
  exact valsPos_alSet_incr _ _ _ (by norm_num) hrm

theorem valsPos_detectRelationsLoop (nodes : List GraphNode)
    (fileSet : List String) (nodeByFile : AList GraphNode) :
    ValsPos (detectRelationsLoop nodes fileSet nodeByFile).1 := by
  unfold detectRelationsLoop
  apply foldl_inv (P := fun (acc : AList ℚ × AList (List String)) => ValsPos acc.1)
  · intro e he
    exact absurd he (List.not_mem_nil e)
  · intro acc node _ hacc
    exact valsPos_processNodeDomain nodes node _
      (valsPos_processNodeImports fileSet nodeByFile node acc.1 hacc)

theorem relationsOfMap_pos (rm : AList ℚ) (h : ValsPos rm) :
    ∀ r ∈ relationsOfMap rm, 0 < r.weight := by
  intro r hr
  obtain ⟨e, he, hfe⟩ := List.mem_filterMap.mp hr
  have hv := h e he
  cases hsp : jsSplitOn e.1 "->" with
  | nil => rw [hsp] at hfe; exact absurd hfe (by simp)
  | cons f rest =>
    cases rest with
    | nil => rw [hsp] at hfe; exact absurd hfe (by simp)
    | cons t rest2 =>
      rw [hsp] at hfe
      dsimp only at hfe
      by_cases hft : f ≠ "" ∧ t ≠ ""
      · rw [if_pos hft] at hfe
        obtain rfl := Option.some_injective _ hfe
        exact hv
      · rw [if_neg hft] at hfe
        exact absurd hfe (by simp)

theorem graphND_accumulate (rels : List PatternRelation) :
    GraphND (accumulatePatternMap rels) := by
  unfold accumulatePatternMap
  apply foldl_inv (P := GraphND)
  · exact ⟨List.nodup_nil, fun e he => absurd he (List.not_mem_nil e)⟩
  · intro g rel _ hg
    constructor
    · exact nodup_alKeys_alSet _ _ _ hg.1
    · intro e he
      rcases mem_alSet _ _ _ _ he with rfl | hm
      · apply nodup_alKeys_alSet
        cases hge : alGet g rel.fromPat with
        | none => simp [alKeys]
        | some inner =>
          simp only [hge, Option.getD_some]
          exact hg.2 _ (alGet_mem _ _ _ hge)
      · exact hg.2 e hm

theorem present_updEdge_self (s : AList (AList ℚ)) (a b : String) (w : ℚ) :
    present (updEdge s a b w) a b := by
  unfold present alGet2 updEdge
  rw [alGet_alSet_self]
  simp [alGet_alSet_self]

theorem present_updEdge_mono (s : AList (AList ℚ)) (a b : String) (w : ℚ)
    (x y : String) (h : present s x y) : present (updEdge s a b w) x y := by
  unfold present alGet2 at h
  unfold present alGet2 updEdge
  by_cases hx : x = a
  · subst hx
    rw [alGet_alSet_self]
    cases hm : alGet s x with
    | none => rw [hm] at h; exact absurd h (by simp)
    | some m =>
      rw [hm] at h
      simp only [Option.some_bind] at h ⊢
      rw [Option.getD_some]
      by_cases hy : y = b
      · subst hy; rw [alGet_alSet_self]; rfl
      · rw [alGet_alSet_ne _ _ _ _ hy]; exact h
  · rw [alGet_alSet_ne _ _ _ _ hx]
    exact h

theorem present_updEdge_rev (s : AList (AList ℚ)) (a b : String) (w : ℚ)
    (x y : String) (h : present (updEdge s a b w) x y) :
    present s x y ∨ (x = a ∧ y = b) := by
  unfold present alGet2 updEdge at h
  by_cases hx : x = a
  · subst hx
    rw [alGet_alSet_self] at h
    simp only [Option.some_bind] at h
    by_cases hy : y = b
    · exact Or.inr ⟨rfl, hy⟩
    · rw [alGet_alSet_ne _ _ _ _ hy] at h
      cases hm : alGet s x with
      | none => rw [hm] at h; exact absurd h (by simp)
      | some m =>
        rw [hm, Option.getD_some] at h
        left
        unfold present alGet2
        rw [hm]
        simpa using h
  · rw [alGet_alSet_ne _ _ _ _ hx] at h
    exact Or.inl h

theorem present_ensureKey_iff (s : AList (AList ℚ)) (k x y : String) :
    present (ensureKey s k) x y ↔ present s x y := by
  unfold ensureKey
  by_cases hk : alHasKey s k = true
  · rw [if_pos hk]
  · rw [if_neg hk]
    unfold present alGet2
    by_cases hx : x = k
    · subst hx
      rw [alGet_alSet_self]
      unfold alHasKey at hk
      cases hm : alGet s x with
      | none => simp
      | some m =>
        rw [hm] at hk
        simp at hk
    · rw [alGet_alSet_ne _ _ _ _ hx]

theorem graphND_updEdge (s : AList (AList ℚ)) (a b : String) (w : ℚ)
    (h : GraphND s) : GraphND (updEdge s a b w) := by
  constructor
  · exact nodup_alKeys_alSet _ _ _ h.1
  · intro e he
    rcases mem_alSet _ _ _ _ he with rfl | hm
    · apply nodup_alKeys_alSet
      cases hg : alGet s a with
      | none => simp [alKeys]
      | some inner =>
        simp only [hg, Option.getD_some]
        exact h.2 _ (alGet_mem _ _ _ hg)
    · exact h.2 e hm

theorem graphND_ensureKey (s : AList (AList ℚ)) (k : String)
    (h : GraphND s) : GraphND (ensureKey s k) := by
  unfold ensureKey
  by_cases hk : alHasKey s k = true
  · rw [if_pos hk]; exact h
  · rw [if_neg hk]
    constructor
    · exact nodup_alKeys_alSet _ _ _ h.1
    · intro e he
      rcases mem_alSet _ _ _ _ he with rfl | hm
      · exact List.nodup_nil
      · exact h.2 e hm

theorem graphPos_updEdge (s : AList (AList ℚ)) (a b : String) (w : ℚ)
    (hw : 0 < w) (h : GraphPos s) : GraphPos (updEdge s a b w) := by
  intro e he
  rcases mem_alSet _ _ _ _ he with rfl | hm
  · intro e2 he2
    rcases mem_alSet _ _ _ _ he2 with rfl | hm2
    · exact hw
    · cases hg : alGet s a with
      | none =>
        rw [hg] at hm2
        exact absurd hm2 (List.not_mem_nil _)
      | some inner =>
        rw [hg, Option.getD_some] at hm2
        exact h _ (alGet_mem _ _ _ hg) e2 hm2
  · exact h e hm

theorem graphPos_ensureKey (s : AList (AList ℚ)) (k : String)
    (h : GraphPos s) : GraphPos (ensureKey s k) := by
  unfold ensureKey
  by_cases hk : alHasKey s k = true
  · rw [if_pos hk]; exact h
  · rw [if_neg hk]
    intro e he
    rcases mem_alSet _ _ _ _ he with rfl | hm
    · exact fun e2 he2 => absurd he2 (List.not_mem_nil _)
    · exact h e hm

theorem mirror_weight_pos (s2 : AList (AList ℚ)) (toKey pattern : String)
    (v : ℚ) (hv : 0 < v) (h : GraphPos s2) :
    0 < (alGet ((alGet s2 toKey).getD []) pattern).getD 0 + v * (4/5) := by
  have hv8 : 0 < v * (4/5 : ℚ) := mul_pos hv (by norm_num)
  cases hg : alGet s2 toKey with
  | none => simpa using hv8
  | some m =>
    cases hgm : alGet m pattern with
    | none => simpa [hgm] using hv8
    | some u =>
      have hu := h _ (alGet_mem _ _ _ hg) _ (alGet_mem _ _ _ hgm)
      rw [Option.getD_some, hgm, Option.getD_some]
      exact add_pos hu hv8

/-- The bundled invariant carried through symmetrization. -/
def SymInv (s : AList (AList ℚ)) : Prop :=
  GraphND s ∧ GraphPos s ∧ PairSym s

theorem symInv_symStep (pattern : String) (s : AList (AList ℚ))
    (e2 : String × ℚ) (hv : 0 < e2.2) (h : SymInv s) :
    SymInv (symStep pattern s e2) := by
  obtain ⟨hnd, hpos, hsym⟩ := h
  show SymInv (updEdge (ensureKey (updEdge s pattern e2.1 e2.2) e2.1) e2.1 pattern
    ((alGet ((alGet (ensureKey (updEdge s pattern e2.1 e2.2) e2.1) e2.1).getD [])
      pattern).getD 0 + e2.2 * (4/5)))
  have hnd1 := graphND_updEdge s pattern e2.1 e2.2 hnd
  have hpos1 := graphPos_updEdge s pattern e2.1 e2.2 hv hpos
  have hnd2 := graphND_ensureKey _ e2.1 hnd1
  have hpos2 := graphPos_ensureKey _ e2.1 hpos1
  refine ⟨graphND_updEdge _ _ _ _ hnd2,
    graphPos_updEdge _ _ _ _ (mirror_weight_pos _ e2.1 pattern e2.2 hv hpos2) hpos2, ?_⟩
  intro x y hxy
  rcases present_updEdge_rev _ _ _ _ _ _ hxy with hxy2 | ⟨rfl, rfl⟩
  · rw [present_ensureKey_iff] at hxy2
    rcases present_updEdge_rev _ _ _ _ _ _ hxy2 with hxy3 | ⟨rfl, rfl⟩
    · apply present_updEdge_mono
      rw [present_ensureKey_iff]
      exact present_updEdge_mono _ _ _ _ _ _ (hsym x y hxy3)
    · exact present_updEdge_self _ _ _ _
  · apply present_updEdge_mono
    rw [present_ensureKey_iff]
    exact present_updEdge_self _ _ _ _

theorem symInv_symmetrize (g : AList (AList ℚ)) (hg : GraphPos g) :
    SymInv (symmetrize g) := by
  unfold symmetrize
  apply foldl_inv (P := SymInv)
  · refine ⟨⟨List.nodup_nil, fun e he => absurd he (List.not_mem_nil e)⟩,
      fun e he => absurd he (List.not_mem_nil e), ?_⟩
    intro a b hab
    exact absurd hab (by simp [present, alGet2])
  · intro s entry hentry hP
    apply foldl_inv (P := SymInv)
    · exact ⟨graphND_ensureKey s entry.1 hP.1,
        graphPos_ensureKey s entry.1 hP.2.1,
        fun a b hab => (present_ensureKey_iff s entry.1 b a).mpr
          (hP.2.2 a b ((present_ensureKey_iff s entry.1 a b).mp hab))⟩
    · intro s2 e2 he2 hP2
      exact symInv_symStep entry.1 s2 e2 (hg entry hentry e2 he2) hP2

/-- Every list element's weight is bounded by `maxWeight`. -/
theorem le_maxWeight_aux (m : AList ℚ) :
    ∀ acc : ℚ, acc ≤ m.foldl (fun a e => max a e.2) acc ∧
      ∀ e ∈ m, e.2 ≤ m.foldl (fun a e => max a e.2) acc := by
  induction m with
  | nil =>
    intro acc
    exact ⟨le_refl acc, fun e he => absurd he (List.not_mem_nil e)⟩
  | cons f rest ih =>
    intro acc
    constructor
    · exact le_trans (le_max_left acc f.2) (ih (max acc f.2)).1
    · intro e he
      rcases List.mem_cons.mp he with rfl | hm
      · exact le_trans (le_max_right acc e.2) (ih (max acc e.2)).1
      · exact (ih (max acc f.2)).2 e hm

theorem le_maxWeight (m : AList ℚ) (e : String × ℚ) (he : e ∈ m) :
    e.2 ≤ maxWeight m :=
  (le_maxWeight_aux m 0).2 e he

theorem graphPos_accumulate (rels : List PatternRelation)
    (hw : ∀ r ∈ rels, 0 < r.weight) : GraphPos (accumulatePatternMap rels) := by
  unfold accumulatePatternMap
  apply foldl_inv
    (P := fun (g : AList (AList ℚ)) => GraphPos g)
  · intro e he
    exact absurd he (List.not_mem_nil e)
  · intro g rel hrel hg
    intro e he
    rcases mem_alSet _ _ _ _ he with rfl | hm
    · apply valsPos_alSet_incr _ _ _ (hw rel hrel)
      cases hge : alGet g rel.fromPat with
      | none => exact fun e he => absurd he (List.not_mem_nil e)
      | some inner =>
        simp only [hge, Option.getD_some]
        exact hg _ (alGet_mem _ _ _ hge)
    · exact hg e hm

/-! ### Characterizing the normalization pass -/

theorem normEntryInner_key (mx : ℚ) (e : String × ℚ) (r : String × ℚ)
    (h : normEntryInner mx e = some r) : r.1 = e.1 := by
  unfold normEntryInner at h
  split at h
  · exact absurd h (by simp)
  · obtain rfl := Option.some_injective _ h
    rfl

theorem normEntryOuter_key (e : String × AList ℚ) (r : String × AList ℚ)
    (h : normEntryOuter e = some r) : r.1 = e.1 := by
  unfold normEntryOuter at h
  split at h
  · exact absurd h (by simp)
  · split at h
    · exact absurd h (by simp)
    · obtain rfl := Option.some_injective _ h
      rfl

theorem alGet_normalizeInner_some (m : AList ℚ) (mx : ℚ) (k : String) (v : ℚ)
    (hnd : (alKeys m).Nodup) (h : alGet m k = some v) :
    alGet (normalizeInner m mx) k =
      if normWeight mx v < minWeight then none
      else some (min 1 (normWeight mx v)) := by
  unfold normalizeInner
  rw [alGet_filterMap_some (normEntryInner mx) (normEntryInner_key mx) m hnd k v h]
  unfold normEntryInner
  split
  · rfl
  · rfl

theorem alGet_normalizeInner_none (m : AList ℚ) (mx : ℚ) (k : String)
    (h : alGet m k = none) : alGet (normalizeInner m mx) k = none := by
  unfold normalizeInner
  exact alGet_filterMap_none (normEntryInner mx) (normEntryInner_key mx) m k h

theorem alGet_normalizePatterns_some (g : AList (AList ℚ)) (k : String)
    (m : AList ℚ) (hnd : (alKeys g).Nodup) (h : alGet g k = some m) :
    alGet (normalizePatterns g) k =
      if maxWeight m = 0 then none
      else if (normalizeInner m (maxWeight m)).isEmpty then none
      else some (normalizeInner m (maxWeight m)) := by
  unfold normalizePatterns
  rw [alGet_filterMap_some normEntryOuter normEntryOuter_key g hnd k m h]
  unfold normEntryOuter
  split
  · rfl
  · split
    · rfl
    · rfl

theorem alGet_normalizePatterns_none (g : AList (AList ℚ)) (k : String)
    (h : alGet g k = none) : alGet (normalizePatterns g) k = none :=
  alGet_filterMap_none normEntryOuter normEntryOuter_key g k h

theorem minWeight_pos : (0 : ℚ) < minWeight := by norm_num [minWeight]

theorem minWeight_le_one : minWeight ≤ (1 : ℚ) := by norm_num [minWeight]

/-- Every weight surviving normalization lies in `[minWeight, 1]`. -/
theorem normalizePatterns_bounds (g : AList (AList ℚ)) (a b : String) (w : ℚ)
    (h : alGet2 (normalizePatterns g) a b = some w) : minWeight ≤ w ∧ w ≤ 1 := by
  unfold alGet2 at h
  cases hg : alGet (normalizePatterns g) a with
  | none => rw [hg] at h; exact absurd h (by simp)
  | some m2 =>
    rw [hg, Option.some_bind] at h
    obtain ⟨e, _, hfe⟩ := List.mem_filterMap.mp (alGet_mem _ _ _ hg)
    unfold normEntryOuter at hfe
    split at hfe
    · exact absurd hfe (by simp)
    · split at hfe
      · exact absurd hfe (by simp)
      · obtain hm2 := Option.some_injective _ hfe
        have hm2' : m2 = normalizeInner e.2 (maxWeight e.2) := (congrArg Prod.snd hm2).symm
        rw [hm2'] at h
        obtain ⟨e2, _, hfe2⟩ := List.mem_filterMap.mp (alGet_mem _ _ _ h)
        unfold normEntryInner at hfe2
        split at hfe2
        · exact absurd hfe2 (by simp)
        · next hge =>
          obtain hw2 := Option.some_injective _ hfe2
          have hw2' : w = min 1 (normWeight (maxWeight e.2) e2.2) :=
            (congrArg Prod.snd hw2).symm
          push_neg at hge
          constructor
          · rw [hw2']
            exact le_min minWeight_le_one hge
          · rw [hw2']
            exact min_le_left _ _

/-- A surviving pattern always keeps at least one outgoing edge. -/
theorem normalizePatterns_nonempty (g : AList (AList ℚ)) (a : String)
    (m2 : AList ℚ) (h : alGet (normalizePatterns g) a = some m2) : m2 ≠ [] := by
  obtain ⟨e, _, hfe⟩ := List.mem_filterMap.mp (alGet_mem _ _ _ h)
  unfold normEntryOuter at hfe
  split at hfe
  · exact absurd hfe (by simp)
  · split at hfe
    · exact absurd hfe (by simp)
    · next hne =>
      obtain hm2 := Option.some_injective _ hfe
      have hm2' : m2 = normalizeInner e.2 (maxWeight e.2) := (congrArg Prod.snd hm2).symm
      rw [hm2']
      intro hcon
      rw [hcon] at hne
      exact hne rfl

/-! ### Weight bounds (C3) and reverse edges (C4) -/

theorem buildGraphFromIndex_patterns (index : AList FileIndexEntry)
    (ws nowIso : String) :
    (buildGraphFromIndex index ws nowIso).patterns =
      normalizePatterns (symmetrize (rawPatternsOf index)) := rfl

theorem graphPos_rawPatternsOf (index : AList FileIndexEntry) :
    GraphPos (rawPatternsOf index) := by
  unfold rawPatternsOf detectRelations
  exact graphPos_accumulate _ (relationsOfMap_pos _ (valsPos_detectRelationsLoop _ _ _))

theorem updateGraphForFiles_patterns_rebuilt (eg : PatternGraphData)
    (fullIndex : AList FileIndexEntry) (changed : List String) (ws nowIso : String)
    (h : affectedPatternsOf fullIndex
      (affectedFiles (buildNodes fullIndex)
        (setOfList ((buildNodes fullIndex).map (·.file))) changed) ≠ []) :
    (updateGraphForFiles (some eg) fullIndex changed ws nowIso).1.patterns =
      normalizePatterns (symmetrize (rawPatternsOf fullIndex)) := by
  unfold updateGraphForFiles
  dsimp only
  rw [if_pos h]
  rfl

/-- C3 (amended): after normalization — in `buildGraphFromIndex` always, and
in `updateGraphForFiles` whenever the pattern relations are rebuilt (non-empty
affected-pattern set) — every stored edge weight lies in the closed interval
`[0.05, 1]` (the floor itself is attainable), and every surviving pattern
keeps at least one outgoing edge. -/
theorem patternGraph_weight_bounds :
    (∀ (index : AList FileIndexEntry) (ws nowIso A B : String) (w : ℚ),
      alGet2 (buildGraphFromIndex index ws nowIso).patterns A B = some w →
      minWeight ≤ w ∧ w ≤ 1) ∧
    (∀ (index : AList FileIndexEntry) (ws nowIso A : String) (m : AList ℚ),
      alGet (buildGraphFromIndex index ws nowIso).patterns A = some m → m ≠ []) ∧
    (∀ (eg : PatternGraphData) (fullIndex : AList FileIndexEntry)
        (changed : List String) (ws nowIso A B : String) (w : ℚ),
      affectedPatternsOf fullIndex
        (affectedFiles (buildNodes fullIndex)
          (setOfList ((buildNodes fullIndex).map (·.file))) changed) ≠ [] →
      alGet2 (updateGraphForFiles (some eg) fullIndex changed ws nowIso).1.patterns A B =
        some w →
      minWeight ≤ w ∧ w ≤ 1) := by
  refine ⟨?_, ?_, ?_⟩
  · intro index ws nowIso A B w h
    rw [buildGraphFromIndex_patterns] at h
    exact normalizePatterns_bounds _ _ _ _ h
  · intro index ws nowIso A m h
    rw [buildGraphFromIndex_patterns] at h
    exact normalizePatterns_nonempty _ _ _ h
  · intro eg fullIndex changed ws nowIso A B w hA h
    rw [updateGraphForFiles_patterns_rebuilt eg fullIndex changed ws nowIso hA] at h
    exact normalizePatterns_bounds _ _ _ _ h

/-- Entry builder for the concrete graph scenarios. -/
def mkGraphEntry (rel pat : String) (imps : List String) : FileIndexEntry :=
  ⟨rel, rel, pat, "global", imps, [], [], [], [], [], [], [], "h", ⟨10, 0, 0⟩⟩

/-- One `pa` file importing twenty `pb` files and one `pc` file: the raw
relation weights are `pa->pb = 20` and `pa->pc = 1`, so normalizing by the
max gives `pa->pc` a rounded weight of exactly `0.05`. -/
def c3Index : AList FileIndexEntry :=
  [("p/a.ts", mkGraphEntry "p/a.ts" "pa"
    ["./b1", "./b2", "./b3", "./b4", "./b5", "./b6", "./b7", "./b8", "./b9", "./b10",
     "./b11", "./b12", "./b13", "./b14", "./b15", "./b16", "./b17", "./b18", "./b19",
     "./b20", "./c"])] ++
  ((List.range 20).map (fun i =>
    ("p/b" ++ toString (i + 1) ++ ".ts",
     mkGraphEntry ("p/b" ++ toString (i + 1) ++ ".ts") "pb" []))) ++
  [("p/c.ts", mkGraphEntry "p/c.ts" "pc" [])]

/-- C3 counterexample: the persisted weight of `pa -> pc` in the graph built
from `c3Index` is exactly `0.05` — it is *kept*, not pruned, so the weights
do not lie strictly above `0.05`. -/
theorem patternGraph_weight_floor_counterexample :
    alGet2 (buildGraphFromIndex c3Index "ws" "t").patterns "pa" "pc" = some minWeight ∧
    ¬ minWeight > (1/20 : ℚ) := by
  constructor
  · decide
  · norm_num [minWeight]

/-- Two files whose patterns relate with raw weight 1. -/
def c3SmallIndex : AList FileIndexEntry :=
  [("p/a.ts", mkGraphEntry "p/a.ts" "pa" ["./b"]),
   ("p/b.ts", mkGraphEntry "p/b.ts" "pb" [])]

theorem patternGraph_weight_bounds_witness :
    (minWeight ≤ 1 ∧ (1 : ℚ) ≤ 1) ∧ (minWeight ≤ 1 ∧ (1 : ℚ) ≤ 1) :=
  ⟨patternGraph_weight_bounds.1 c3SmallIndex "ws" "t" "pa" "pb" 1 (by decide),
   patternGraph_weight_bounds.2.2 (buildGraphFromIndex c3SmallIndex "ws" "t")
     c3SmallIndex ["p/a.ts"] "ws" "t" "pa" "pb" 1 (by decide) (by decide)⟩

/-- C4 (amended): for every edge `A -> B` present after normalization, the
pre-pruning symmetrized graph always contains the reverse edge `B -> A` with
strictly positive weight; in the final graph the reverse edge is either
present with positive weight or was pruned because its weight, normalized by
`B`'s own maximum and rounded to two decimals, fell below the `0.05` floor
(which can happen even when `B` keeps other outgoing edges). -/
theorem patternGraph_reverse_edge (index : AList FileIndexEntry)
    (ws nowIso A B : String) (w : ℚ)
    (h : alGet2 (buildGraphFromIndex index ws nowIso).patterns A B = some w) :
    ∃ v, alGet2 (symmetrize (rawPatternsOf index)) B A = some v ∧ 0 < v ∧
      ((∃ u, alGet2 (buildGraphFromIndex index ws nowIso).patterns B A = some u ∧ 0 < u) ∨
        normWeight (maxWeight ((alGet (symmetrize (rawPatternsOf index)) B).getD [])) v <
          minWeight) := by
  rw [buildGraphFromIndex_patterns] at h ⊢
  obtain ⟨⟨hndO, hndI⟩, hpos, hsym⟩ := symInv_symmetrize _ (graphPos_rawPatternsOf index)
  unfold alGet2 at h
  cases hga : alGet (normalizePatterns (symmetrize (rawPatternsOf index))) A with
  | none => rw [hga] at h; exact absurd h (by simp)
  | some m2 =>
    rw [hga, Option.some_bind] at h
    cases hSA : alGet (symmetrize (rawPatternsOf index)) A with
    | none =>
      rw [alGet_normalizePatterns_none _ A hSA] at hga
      exact absurd hga (by simp)
    | some mA =>
      have hchar := alGet_normalizePatterns_some _ A mA hndO hSA
      rw [hga] at hchar
      split at hchar
      · exact absurd hchar (by simp)
      · split at hchar
        · exact absurd hchar (by simp)
        · obtain hm2 := Option.some_injective _ hchar
          rw [hm2] at h
          cases hMAB : alGet mA B with
          | none =>
            rw [alGet_normalizeInner_none mA _ B hMAB] at h
            exact absurd h (by simp)
          | some vab =>
            have hpresAB : present (symmetrize (rawPatternsOf index)) A B := by
              unfold present alGet2
              rw [hSA, Option.some_bind, hMAB]
              rfl
            have hpresBA := hsym A B hpresAB
            unfold present alGet2 at hpresBA
            cases hSB : alGet (symmetrize (rawPatternsOf index)) B with
            | none => rw [hSB] at hpresBA; exact absurd hpresBA (by simp)
            | some mB =>
              rw [hSB, Option.some_bind] at hpresBA
              cases hMBA : alGet mB A with
              | none => rw [hMBA] at hpresBA; exact absurd hpresBA (by simp)
              | some v =>
                have hvpos : 0 < v :=
                  hpos _ (alGet_mem _ _ _ hSB) _ (alGet_mem _ _ _ hMBA)
                refine ⟨v, ?_, hvpos, ?_⟩
                · unfold alGet2
                  rw [hSB, Option.some_bind]
                  exact hMBA
                · by_cases hw' : normWeight (maxWeight mB) v < minWeight
                  · right
                    rw [Option.getD_some]
                    exact hw'
                  · left
                    have hmxB : ¬ maxWeight mB = 0 := by
                      have hvle := le_maxWeight mB (A, v) (alGet_mem _ _ _ hMBA)
                      exact ne_of_gt (lt_of_lt_of_le hvpos hvle)
                    have hinner := alGet_normalizeInner_some mB (maxWeight mB) A v
                      (hndI _ (alGet_mem _ _ _ hSB)) hMBA
                    rw [if_neg hw'] at hinner
                    have hne : (normalizeInner mB (maxWeight mB)).isEmpty = false := by
                      cases hx : normalizeInner mB (maxWeight mB) with
                      | nil => rw [hx] at hinner; exact absurd hinner (by simp)
                      | cons _ _ => rfl
                    have hcharB := alGet_normalizePatterns_some _ B mB hndO hSB
                    rw [if_neg hmxB, if_neg (by rw [hne]; exact Bool.false_ne_true)] at hcharB
                    refine ⟨min 1 (normWeight (maxWeight mB) v), ?_, ?_⟩
                    · unfold alGet2
                      rw [hcharB, Option.some_bind]
                      exact hinner
                    · push_neg at hw'
                      exact lt_of_lt_of_le minWeight_pos (le_min minWeight_le_one hw')

/-- Three patterns where `pb -> pa` exists raw with weight 1 but `pb`'s other
edge `pb -> pc` has raw weight 30, so after normalization `pb -> pa` rounds
to `0.03` and is pruned while `pa -> pb` survives and `pb` keeps `pb -> pc`. -/
def c4Index : AList FileIndexEntry :=
  [("p/a.ts", mkGraphEntry "p/a.ts" "pa" ["./b0"]),
   ("p/b0.ts", mkGraphEntry "p/b0.ts" "pb" ["./a"]),
   ("p/bigb.ts", mkGraphEntry "p/bigb.ts" "pb"
     ((List.range 30).map (fun i => "./c" ++ toString (i + 1))))] ++
  ((List.range 30).map (fun i =>
    ("p/c" ++ toString (i + 1) ++ ".ts",
     mkGraphEntry ("p/c" ++ toString (i + 1) ++ ".ts") "pc" [])))

/-- C4 counterexample: in the graph built from `c4Index`, `pa -> pb` is
present after normalization, `pb -> pa` is absent, and `pb` still has another
outgoing edge `pb -> pc` — so neither disjunct of the claim holds. -/
theorem patternGraph_symmetry_counterexample :
    alGet2 (buildGraphFromIndex c4Index "ws" "t").patterns "pa" "pb" = some 1 ∧
    alGet2 (buildGraphFromIndex c4Index "ws" "t").patterns "pb" "pa" = none ∧
    alGet2 (buildGraphFromIndex c4Index "ws" "t").patterns "pb" "pc" = some 1 := by
  refine ⟨by decide, by decide, by decide⟩

theorem patternGraph_reverse_edge_witness :
    ∃ v, alGet2 (symmetrize (rawPatternsOf c3SmallIndex)) "pb" "pa" = some v ∧ 0 < v ∧
      ((∃ u, alGet2 (buildGraphFromIndex c3SmallIndex "ws" "t").patterns "pb" "pa" =
          some u ∧ 0 < u) ∨
        normWeight (maxWeight ((alGet (symmetrize (rawPatternsOf c3SmallIndex)) "pb").getD []))
          v < minWeight) :=
  patternGraph_reverse_edge c3SmallIndex "ws" "t" "pa" "pb" 1 (by decide)

/-! ### Import resolution scenarios (C9) -/

/-- `a/x.ts` imports `./y` and `a/y.ts` is indexed. -/
def c9Index1 : AList FileIndexEntry :=
  [("a/x.ts", mkGraphEntry "a/x.ts" "page" ["./y"]),
   ("a/y.ts", mkGraphEntry "a/y.ts" "service" [])]

/-- `a/x.ts` imports `../missing`, which no candidate resolves. -/
def c9Index2 : AList FileIndexEntry :=
  [("a/x.ts", mkGraphEntry "a/x.ts" "page" ["../missing"]),
   ("a/y.ts", mkGraphEntry "a/y.ts" "service" [])]

/-- C9: with `a/x.ts` importing `./y` and `a/y.ts` indexed, the built graph
records the file-relation edge `a/x.ts -> a/y.ts`; with `a/x.ts` importing
`../missing`, no candidate (bare, added-extension, or `/index.*`) matches, the
resolver returns `null`, no file relation is recorded, and — every function in
scope being total — no error is raised. -/
theorem importResolution_scenarios :
    alGet (buildGraphFromIndex c9Index1 "ws" "t").files "a/x.ts" =
      some ⟨["a/y.ts"], ["service"]⟩ ∧
    resolveImportToFile "../missing" "a/x.ts" ["a/x.ts", "a/y.ts"] = none ∧
    alGet (buildGraphFromIndex c9Index2 "ws" "t").files "a/x.ts" = none := by
  refine ⟨by decide, by decide, by decide⟩

/-! ## Incremental index update — `updateIndexForFiles` in
`src/context/indexer/index.ts`

The content hash (`crypto.md5`), the regex extractor (`extractor.ts`), the
scanner's single-file policy (`isIndexedFile`, whose module is not part of
the sources) and `fs.stat().mtime` are oracle parameters collected in
`IndexerEnv`; `Date.now()` is `now` and the graph's ISO stamp is `nowIso`.
The workspace is an `IndexerState`: the two persisted JSON artifacts plus
the readable files on disk, keyed by relative path (the fsPath → relative
conversion of the URIs is performed by the caller of the embedding). -/

structure IndexerEnv where
  hash : String → String
  extract : ScannedFile → FileIndexEntry
  isIndexedFile : String → Bool
  mtime : String → Nat
  now : Nat
  nowIso : String
  workspacePath : String

structure IndexerState where
  persistedIndex : Option IndexCache
  persistedGraph : Option PatternGraphData
  disk : FileSys
deriving DecidableEq

/-- Insertion sort with the default JS comparator (code-unit lexicographic),
modelling `Object.keys(indexed).sort()`. -/
def insertSorted (x : String) : List String → List String
  | [] => [x]
  | y :: rest => if x ≤ y then x :: y :: rest else y :: insertSorted x rest

def sortStrings : List String → List String
  | [] => []
  | x :: rest => insertSorted x (sortStrings rest)

/-- One changed/created URI of the incremental loop: skip non-indexable
paths, record the path as changed, then re-read and re-extract unless the
stored content hash matches (`continue`), deleting the entry when the read
throws or the entry is no longer useful. -/
def changedStep (env : IndexerEnv) (existingFiles : AList FileIndexEntry)
    (disk : FileSys) (acc : AList FileIndexEntry × List String) (rel : String) :
    AList FileIndexEntry × List String :=
  if !env.isIndexedFile rel then acc
  else
    let changed := acc.2 ++ [rel]
    match alGet disk rel with
    | none => (alErase acc.1 rel, changed)
    | some content =>
      let contentHash := env.hash content
      let unchanged :=
        match alGet existingFiles rel with
        | some prev => prev.contentHash == contentHash
        | none => false
      if unchanged then (acc.1, changed)
      else
        let entry := env.extract
          ⟨env.workspacePath ++ "/" ++ rel, rel, content, contentHash, env.mtime rel⟩
        if isUsefulEntry entry then (alSet acc.1 rel entry, changed)
        else (alErase acc.1 rel, changed)

/-- The body of `updateIndexForFiles` once an existing cache was loaded. -/
def updateIndexForFilesCore (env : IndexerEnv) (existing : IndexCache)
    (st : IndexerState) (changedRels deletedRels : List String) :
    IndexCache × IndexerState × Nat :=
  let afterDelete := deletedRels.foldl
    (fun (acc : AList FileIndexEntry × List String) rel =>
      (alErase acc.1 rel, acc.2 ++ [rel]))
    (existing.files, [])
  let afterChanged := changedRels.foldl (changedStep env existing.files st.disk) afterDelete
  let indexed := afterChanged.1
  let changedRelPaths := afterChanged.2
  if changedRelPaths.isEmpty then (existing, st, 0)
  else
    let sortedKeys := sortStrings (alKeys indexed)
    let hashInput := joinSep "\n"
      (sortedKeys.map (fun k => k ++ ":" ++ (((alGet indexed k).map (·.contentHash)).getD "")))
    let projectHash := env.hash hashInput
    let cache : IndexCache :=
      ⟨existing.version, env.now, indexed, ⟨projectHash, env.now, (alKeys indexed).length⟩⟩
    let graphRes := updateGraphForFiles st.persistedGraph indexed changedRelPaths
      env.workspacePath env.nowIso
    (cache, ⟨some cache, some graphRes.1, st.disk⟩, 1 + graphRes.2)

/-- `updateIndexForFiles(workspaceUri, changedUris, deletedUris)`; a missing
or unparsable persisted index falls back to a full `buildIndex`, which lives
behind `buildIndexFn` (it needs the scanner, which is not part of the
embedded sources). The `Nat` counts `fs.writeFile` calls. -/
def updateIndexForFiles (env : IndexerEnv) (st : IndexerState)
    (changedRels deletedRels : List String)
    (buildIndexFn : IndexerState → IndexCache × IndexerState × Nat) :
    IndexCache × IndexerState × Nat :=
  match st.persistedIndex with
  | none => buildIndexFn st
  | some existing => updateIndexForFilesCore env existing st changedRels deletedRels

/-! ### Second-call behaviour of the incremental update (C5) -/

theorem updateGraphForFiles_writes (g : Option PatternGraphData)
    (i : AList FileIndexEntry) (c : List String) (w n : String) :
    (updateGraphForFiles g i c w n).2 = 1 := by
  cases g <;> rfl

/-- The changed loop appends exactly the indexable paths to `changedRelPaths`. -/
theorem changedLoop_snd (env : IndexerEnv) (existingFiles : AList FileIndexEntry)
    (disk : FileSys) :
    ∀ (l : List String) (acc : AList FileIndexEntry × List String),
      (l.foldl (changedStep env existingFiles disk) acc).2 =
        acc.2 ++ l.filter env.isIndexedFile := by
  intro l
  induction l with
  | nil => intro acc; simp
  | cons rel rest ih =>
    intro acc
    rw [List.foldl_cons, ih]
    by_cases hix : env.isIndexedFile rel = true
    · have hstep : (changedStep env existingFiles disk acc rel).2 = acc.2 ++ [rel] := by
        unfold changedStep
        rw [show (!env.isIndexedFile rel) = false by simp [hix], if_neg (by simp)]
        cases alGet disk rel with
        | none => rfl
        | some content =>
          dsimp only
          split
          · rfl
          · split
            · rfl
            · rfl
      rw [hstep, List.filter_cons_of_pos hix]
      simp
    · have hstep : changedStep env existingFiles disk acc rel = acc := by
        unfold changedStep
        rw [show (!env.isIndexedFile rel) = true by simp [hix], if_pos rfl]
      rw [hstep, List.filter_cons_of_neg (by simpa using hix)]

/-- When every indexable changed path is unchanged on disk (stored hash
matches), the changed loop leaves the entry map untouched. -/
theorem changedLoop_fst_unchanged (env : IndexerEnv)
    (existingFiles : AList FileIndexEntry) (disk : FileSys) :
    ∀ (l : List String) (acc : AList FileIndexEntry × List String),
      (∀ rel ∈ l, env.isIndexedFile rel = true →
        ∃ content prev, alGet disk rel = some content ∧
          alGet existingFiles rel = some prev ∧
          prev.contentHash = env.hash content) →
      acc.1 = existingFiles →
      (l.foldl (changedStep env existingFiles disk) acc).1 = existingFiles := by
  intro l
  induction l with
  | nil => intro acc _ hacc; exact hacc
  | cons rel rest ih =>
    intro acc hl hacc
    rw [List.foldl_cons]
    apply ih _ (fun r hr => hl r (List.mem_cons_of_mem rel hr))
    by_cases hix : env.isIndexedFile rel = true
    · obtain ⟨content, prev, hdisk, hprev, hhash⟩ := hl rel (List.mem_cons_self rel rest) hix
      unfold changedStep
      rw [show (!env.isIndexedFile rel) = false by simp [hix], if_neg (by simp)]
      rw [hdisk]
      dsimp only
      rw [hprev]
      dsimp only
      rw [show (prev.contentHash == env.hash content) = true by simp [hhash], if_pos rfl]
      exact hacc
    · unfold changedStep
      rw [show (!env.isIndexedFile rel) = true by simp [hix], if_pos rfl]
      exact hacc

/-- C5 (amended): a second `updateIndexForFiles` call with the same changed
set and no intervening modifications is *not* a no-op. The loop records
every indexable changed path before the hash check, so as long as one
changed path is indexable the call recomputes the project hash, rewrites the
persisted index with a fresh timestamp and re-runs the incremental graph
update — two file writes — while the files map itself is left equal to the
existing one. The call returns the existing cache untouched with zero writes
only when no changed path is indexable (and nothing was deleted). -/
theorem updateIndexForFiles_second_call (env : IndexerEnv) (st : IndexerState)
    (existing : IndexCache) (changed : List String)
    (buildIndexFn : IndexerState → IndexCache × IndexerState × Nat)
    (hidx : st.persistedIndex = some existing) :
    ((∀ rel ∈ changed, env.isIndexedFile rel = true →
        ∃ content prev, alGet st.disk rel = some content ∧
          alGet existing.files rel = some prev ∧
          prev.contentHash = env.hash content) →
      (∃ rel ∈ changed, env.isIndexedFile rel = true) →
      (updateIndexForFiles env st changed [] buildIndexFn).1.files = existing.files ∧
      (updateIndexForFiles env st changed [] buildIndexFn).1.timestamp = env.now ∧
      (updateIndexForFiles env st changed [] buildIndexFn).2.2 = 2) ∧
    ((∀ rel ∈ changed, env.isIndexedFile rel = false) →
      updateIndexForFiles env st changed [] buildIndexFn = (existing, st, 0)) := by
  constructor
  · intro hunch ⟨rel0, hrel0, hix0⟩
    unfold updateIndexForFiles
    rw [hidx]
    unfold updateIndexForFilesCore
    have hfst := changedLoop_fst_unchanged env existing.files st.disk changed
      (existing.files, []) (by simpa using hunch) rfl
    have hsnd := changedLoop_snd env existing.files st.disk changed (existing.files, [])
    have hfoldD : ([] : List String).foldl
        (fun (acc : AList FileIndexEntry × List String) rel =>
          (alErase acc.1 rel, acc.2 ++ [rel])) (existing.files, []) =
        (existing.files, []) := rfl
    dsimp only
    rw [hfoldD] at *
    rw [hsnd]
    have hne : (([] : List String) ++ changed.filter env.isIndexedFile).isEmpty = false := by
      rw [List.nil_append]
      cases hf : changed.filter env.isIndexedFile with
      | nil =>
        exfalso
        have := List.mem_filter.mpr ⟨hrel0, hix0⟩
        rw [hf] at this
        exact absurd this (List.not_mem_nil rel0)
      | cons _ _ => rfl
    rw [hne, if_neg (by simp), hfst]
    exact ⟨rfl, rfl, by rw [updateGraphForFiles_writes]⟩
  · intro hnone
    unfold updateIndexForFiles
    rw [hidx]
    unfold updateIndexForFilesCore
    have hsnd := changedLoop_snd env existing.files st.disk changed (existing.files, [])
    have hfilter : changed.filter env.isIndexedFile = [] := by
      apply List.filter_eq_nil_iff.mpr
      intro rel hrel
      simp [hnone rel hrel]
    simp only [List.foldl_nil]
    rw [hsnd, hfilter]
    rfl

/-- The extractor oracle used in the concrete C5 scenario (a useful
`service` entry carrying the scanned content hash). -/
def c5Extract : ScannedFile → FileIndexEntry := fun sf =>
  ⟨sf.path, sf.relativePath, "service", "global", [], ["f"], [], [], [], [], [], [],
   sf.contentHash, ⟨10, 0, sf.lastModified⟩⟩

def c5Env1 : IndexerEnv := ⟨fun s => s, c5Extract, fun _ => true, fun _ => 0, 100, "t1", "ws"⟩

def c5Env2 : IndexerEnv := ⟨fun s => s, c5Extract, fun _ => true, fun _ => 0, 200, "t2", "ws"⟩

def c5State0 : IndexerState :=
  ⟨some ⟨"1.0", 50, [], ⟨"ph0", 50, 0⟩⟩, none, [("p/a.ts", "file-content")]⟩

def c5NoBuild : IndexerState → IndexCache × IndexerState × Nat :=
  fun st => (⟨"", 0, [], ⟨"", 0, 0⟩⟩, st, 0)

def c5FirstCall : IndexCache × IndexerState × Nat :=
  updateIndexForFiles c5Env1 c5State0 ["p/a.ts"] [] c5NoBuild

def c5SecondCall : IndexCache × IndexerState × Nat :=
  updateIndexForFiles c5Env2 c5FirstCall.2.1 ["p/a.ts"] [] c5NoBuild

/-- C5 counterexample: the second call with the same changed set and an
unmodified disk performs two writes (index + pattern graph), not zero, and
returns a cache that differs from the first call's output (fresh timestamp),
even though the files map is unchanged. -/
theorem updateIndexForFiles_second_call_counterexample :
    c5SecondCall.2.2 = 2 ∧
    c5SecondCall.1 ≠ c5FirstCall.1 ∧
    c5SecondCall.1.files = c5FirstCall.1.files := by
  refine ⟨by decide, by decide, by decide⟩

theorem updateIndexForFiles_second_call_witness :
    c5SecondCall.1.files = c5FirstCall.1.files ∧
    c5SecondCall.1.timestamp = c5Env2.now ∧
    c5SecondCall.2.2 = 2 :=
  (updateIndexForFiles_second_call c5Env2 c5FirstCall.2.1 c5FirstCall.1 ["p/a.ts"]
    c5NoBuild (by decide)).1
    (by
      intro rel hrel _
      refine ⟨"file-content", ?_⟩
      obtain rfl := List.mem_singleton.mp hrel
      exact ⟨c5Extract ⟨"ws/p/a.ts", "p/a.ts", "file-content", "file-content", 0⟩,
        by decide, by decide, by decide⟩)
    ⟨"p/a.ts", List.mem_singleton.mpr rfl, rfl⟩


/-! ## Finder project context — `src/context/finder-graph.ts` (C8)

`getFinderProjectContext` reads `.code-index/pattern-graph.json`, parses
it, assembles up to four text sections and clamps the joined text to the
budget `MAX_CONTEXT_CHARS`. The parsed JSON is a record of optional
fields, `FinderGraph` below (the `meta` and `files` fields are never read
by this function and are omitted); a `none` graph argument stands for
both an unreadable file and a failed JSON parse, on which the source
returns null before any assembly. A `none` index models a null `getIndex`
result, and `none` active-file/query arguments model null or undefined
parameters. -/

def MAX_CONTEXT_CHARS : Nat := 6000

def MAX_RELEVANT_FILES : Nat := 18

structure FinderGraph where
  patterns : Option (AList (AList ℚ))
  filesByPattern : Option (AList (List String))
  examples : Option (AList String)
deriving DecidableEq, Repr

/-- Separator class of the query tokenizer regex `[\s/\\_\-.]+`
(whitespace restricted to `jsWhitespace`, as elsewhere in the embedding). -/
def finderSepChar (c : Char) : Bool :=
  jsWhitespace c || c = '/' || c = '\\' || c = '_' || c = '-' || c = '.'

/-- Maximal runs of non-separator characters. JS split on the plus-regex
additionally yields an empty first or last fragment when the string starts
or ends with a separator; such fragments have length below 2 and are
discarded by the length filter applied immediately in the source, so the
embedding drops them at split time. -/
def sepRunsAux : List Char → List Char → List String
  | [], cur => if cur.isEmpty then [] else [String.mk cur.reverse]
  | c :: rest, cur =>
    if finderSepChar c then
      (if cur.isEmpty then sepRunsAux rest [] else String.mk cur.reverse :: sepRunsAux rest [])
    else sepRunsAux rest (c :: cur)

/-- `query.toLowerCase().split(/[\s/\\_\-.]+/).filter((t) => t.length >= 2)`. -/
def queryTokens (query : String) : List String :=
  (sepRunsAux (jsToLower query).data []).filter (fun t => 2 ≤ t.length)

/-- Stable insertion into a list sorted by strictly decreasing score: the
new (later) element goes after every earlier element of equal or higher
score. Together with `sortScored` this models the stable
`Array.prototype.sort` with comparator `(a, b) => b.score - a.score`. -/
def insertScored (x : String × Nat) : List (String × Nat) → List (String × Nat)
  | [] => [x]
  | y :: rest => if y.2 < x.2 then x :: y :: rest else y :: insertScored x rest

def sortScored (l : List (String × Nat)) : List (String × Nat) :=
  l.foldl (fun acc x => insertScored x acc) []

/-- `getRelevantPathsForQuery(index, query)`: token-inclusion scoring of
the index file keys, score-descending stable sort, top
`MAX_RELEVANT_FILES` paths. -/
def getRelevantPathsForQuery (index : Option IndexCache) (query : String) : List String :=
  match index with
  | none => []
  | some index =>
    let tokens := queryTokens query
    if tokens.isEmpty then []
    else
      let scored := (alKeys index.files).foldl (fun acc rel =>
        let lower := jsToLower rel
        let score := tokens.foldl (fun n t => if jsIncludes lower t then n + 1 else n) 0
        if 0 < score then acc ++ [(rel, score)] else acc) []
      ((sortScored scored).take MAX_RELEVANT_FILES).map (fun r => r.1)

/-- Section 1 (source lines 56-61): query-relevant paths. The guard
`userQuery?.trim()` is falsy exactly on a missing query or one trimming
to the empty string. -/
def querySection (index : Option IndexCache) : Option String → List String
  | none => []
  | some q =>
    if jsTrim q = "" then []
    else
      let relevant := getRelevantPathsForQuery index (jsTrim q)
      if relevant.isEmpty then []
      else ["Релевантные файлы по запросу: " ++ joinSep ", " relevant]

/-- Section 2 (lines 63-65): pattern examples. -/
def examplesSection (g : FinderGraph) : List String :=
  match g.examples with
  | none => []
  | some ex =>
    if ex.isEmpty then []
    else ["Паттерны проекта: " ++ joinSep "; " (ex.map (fun e => e.1 ++ " (" ++ e.2 ++ ")"))]

/-- Section 3 (lines 67-75): files grouped by pattern, at most 8 listed
per pattern with a `(+n)` overflow marker. -/
def filesByPatternSection (g : FinderGraph) : List String :=
  match g.filesByPattern with
  | none => []
  | some fbp =>
    if fbp.isEmpty then []
    else
      let byPattern := fbp.map (fun e =>
        let list :=
          if 8 < e.2.length then
            joinSep ", " (e.2.take 8) ++ " (+" ++ toString (e.2.length - 8) ++ ")"
          else joinSep ", " e.2
        e.1 ++ ": " ++ list)
      ["Файлы по паттернам:\n" ++ joinSep "\n" byPattern]

/-- Neighbour collection of the active-file section (lines 82-93): iterate
the active pattern followed by its related patterns, gathering files
distinct from the active one without duplicates (`seen` is the first
component of the fold state); both nested loops break once 12 files are
collected. -/
def collectRelated (active : String) (fbp : AList (List String)) (ps : List String) : List String :=
  (ps.foldl (fun (st : List String × List String) p =>
    ((alGet fbp p).getD []).foldl (fun st2 path =>
      if 12 ≤ st2.2.length then st2
      else if path != active && !(st2.1.contains path) then
        (st2.1 ++ [path], st2.2 ++ [path])
      else st2) st) (([] : List String), ([] : List String))).2

/-- Section 4 (lines 77-101): the active-file neighbourhood. A missing
index entry or an empty `pattern` string is falsy and skips the section,
as do missing `patterns` or `filesByPattern` graph fields. -/
def activeSection (g : FinderGraph) (index : Option IndexCache) : Option String → List String
  | none => []
  | some active =>
    if active = "" then []
    else
      match (match index with | some idx => alGet idx.files active | none => none) with
      | none => []
      | some entry =>
        if entry.pattern = "" then []
        else
          match g.patterns, g.filesByPattern with
          | some pats, some fbp =>
            let relatedPatterns := (alKeys ((alGet pats entry.pattern).getD [])).take 15
            let relatedFiles := collectRelated active fbp (entry.pattern :: relatedPatterns)
            if relatedPatterns.isEmpty && relatedFiles.isEmpty then []
            else
              ["Текущий файл (" ++ active ++ "): " ++ joinSep "; "
                ((if relatedPatterns.isEmpty then [] else
                    ["связанные паттерны: " ++ joinSep ", " relatedPatterns]) ++
                 (if relatedFiles.isEmpty then [] else
                    ["связанные файлы: " ++ joinSep ", " (relatedFiles.take 12)]))]
          | _, _ => []

/-- `s.slice(0, n)` for a non-negative bound. -/
def jsSliceStr (s : String) (n : Nat) : String :=
  String.mk (s.data.take n)

/-- Final budget clamp (line 105): when the text exceeds the budget, the
ellipsis character is appended AFTER slicing to `MAX_CONTEXT_CHARS`, so
the clamped result has `MAX_CONTEXT_CHARS + 1` characters. -/
def truncateWithEllipsis (text : String) : String :=
  if MAX_CONTEXT_CHARS < text.length then jsSliceStr text MAX_CONTEXT_CHARS ++ "…" else text

/-- Lines 103-105: null when no section was produced, else the joined and
clamped text. -/
def finderAssemble (parts : List String) : Option String :=
  if parts.isEmpty then none else some (truncateWithEllipsis (joinSep "\n\n" parts))

/-- `getFinderProjectContext(workspaceUri, activeFileRelative, userQuery)`
as a pure function of the parsed graph, the index and the two optional
string arguments. Sections are pushed in source order: query matches,
pattern examples, files by pattern, active-file neighbourhood. -/
def getFinderProjectContext (graph : Option FinderGraph) (index : Option IndexCache)
    (activeFileRelative userQuery : Option String) : Option String :=
  match graph with
  | none => none
  | some g =>
    finderAssemble
      (querySection index userQuery ++ examplesSection g ++
       filesByPatternSection g ++ activeSection g index activeFileRelative)

theorem length_mk_list (l : List Char) : (String.mk l).length = l.length := rfl

theorem length_append_str (a b : String) : (a ++ b).length = a.length + b.length := by
  cases a with
  | mk l =>
    cases b with
    | mk m =>
      show (String.mk (l ++ m)).length = _
      rw [length_mk_list, length_mk_list, length_mk_list, List.length_append]

theorem truncateWithEllipsis_le (t : String) :
    (truncateWithEllipsis t).length ≤ MAX_CONTEXT_CHARS + 1 := by
  unfold truncateWithEllipsis
  split
  · rw [length_append_str]
    have h1 : (jsSliceStr t MAX_CONTEXT_CHARS).length ≤ MAX_CONTEXT_CHARS := by
      simp only [jsSliceStr, length_mk_list, List.length_take]
      exact Nat.min_le_left _ _
    have h2 : ("…" : String).length = 1 := rfl
    omega
  · omega

theorem finderAssemble_bound (ps : List String) (s : String)
    (h : finderAssemble ps = some s) : s.length ≤ MAX_CONTEXT_CHARS + 1 := by
  unfold finderAssemble at h
  split at h
  · exact Option.noConfusion h
  · injection h with h2
    rw [← h2]
    exact truncateWithEllipsis_le _

/-- C8: every non-null string returned by `getFinderProjectContext` has
length at most `MAX_CONTEXT_CHARS + 1`. This is one more than the claimed
budget: the source appends the ellipsis after slicing to the budget, so an
over-budget assembly yields exactly `MAX_CONTEXT_CHARS + 1` characters
(see the counterexample); an under-budget text is returned unchanged. -/
theorem getFinderProjectContext_bounded (graph : Option FinderGraph)
    (index : Option IndexCache) (active query : Option String) (s : String)
    (h : getFinderProjectContext graph index active query = some s) :
    s.length ≤ MAX_CONTEXT_CHARS + 1 := by
  cases graph with
  | none => exact Option.noConfusion h
  | some g => exact finderAssemble_bound _ s h

/-- A graph whose single pattern example has a 6100-character description. -/
def c8LongGraph : FinderGraph :=
  ⟨none, none, some [("p", String.mk (List.replicate 6100 'a'))]⟩

/-- The single part assembled from `c8LongGraph`. -/
def c8Msg : String :=
  "Паттерны проекта: " ++ ("p" ++ " (" ++ String.mk (List.replicate 6100 'a') ++ ")")

theorem c8Msg_length : c8Msg.length = 6122 := by
  unfold c8Msg
  rw [length_append_str, length_append_str, length_append_str, length_append_str]
  simp only [length_mk_list, List.length_replicate]
  decide

/-- C8 counterexample: with `c8LongGraph` the assembled text has 6122
characters, and the returned context is the 6000-character slice plus the
ellipsis — 6001 characters, exceeding the claimed `MAX_CONTEXT_CHARS`
budget by one. -/
theorem getFinderProjectContext_budget_counterexample :
    (getFinderProjectContext (some c8LongGraph) none none none).map String.length =
      some (MAX_CONTEXT_CHARS + 1) ∧ MAX_CONTEXT_CHARS < MAX_CONTEXT_CHARS + 1 := by
  constructor
  · have hres : getFinderProjectContext (some c8LongGraph) none none none =
        some (truncateWithEllipsis c8Msg) := rfl
    have hlen : (truncateWithEllipsis c8Msg).length = MAX_CONTEXT_CHARS + 1 := by
      unfold truncateWithEllipsis
      rw [if_pos (by rw [c8Msg_length]; decide)]
      rw [length_append_str]
      have h1 : (jsSliceStr c8Msg MAX_CONTEXT_CHARS).length = MAX_CONTEXT_CHARS := by
        have hd : c8Msg.data.length = 6122 := c8Msg_length
        simp only [jsSliceStr, length_mk_list, List.length_take, hd]
        decide
      rw [h1]
      decide
    rw [hres]
    exact congrArg some hlen
  · decide

def c8SmallGraph : FinderGraph := ⟨none, none, some [("p", "d")]⟩

theorem getFinderProjectContext_bounded_witness :
    ("Паттерны проекта: p (d)" : String).length ≤ MAX_CONTEXT_CHARS + 1 :=
  getFinderProjectContext_bounded (some c8SmallGraph) none none none
    "Паттерны проекта: p (d)" (by decide)


/-! ## propose_edits placeholder guard — `src/llm/tools/handlers/propose-edits.ts` (C10)

The `execute` method of `proposeEditsHandler` is embedded as a pure
function. A raw `args.edits` item is either a well-formed object with
`path` and `content` fields (both already coerced to strings, as the
source's `String(...)` does) or a malformed item that the shape check of
line 47 skips; a `none` edits argument models a non-array value.
`readFileWithFallback` from path-utils is an oracle returning the
resolved path and original content used only for the diff payload.
`appendLLMMistake` appends a line to the assistant-history log; whether it
runs is captured by the `mistakeLogged` flag, computed from the same
first-significant-error-line scan as the source (the regex scrubbing of
lines 124-127 only affects the logged text, never whether a line is
logged, and is not needed for any claim). -/

/-- The placeholder test of lines 55-61, applied to the normalized path
and raw content (the final disjunct is redundant in the source and kept
verbatim). -/
def placeholderContent (filePath content : String) : Bool :=
  let trimmed := jsTrim content
  let isJsonFile := jsEndsWith filePath ".json"
  trimmed == "\x7b\x7d" || trimmed == "[]" || trimmed == "" ||
    (!isJsonFile && (trimmed == "\x7b\x7d" || trimmed == "[]"))

inductive RawEdit where
  | wellFormed (path content : String)
  | malformed
deriving DecidableEq, Repr

/-- One iteration of the filtering loop (lines 46-69) over the
`(edits, suspiciousEdits)` accumulator: a well-formed item is diverted to
`suspiciousEdits` when its content is a placeholder and appended to
`edits` otherwise; a malformed item is skipped. -/
def collectStep (acc : List (String × String) × List String) :
    RawEdit → List (String × String) × List String
  | .wellFormed p c =>
    if placeholderContent (normSlash p) c then (acc.1, acc.2 ++ [normSlash p])
    else (acc.1 ++ [(normSlash p, c)], acc.2)
  | .malformed => acc

def collectEdits (raw : List RawEdit) : List (String × String) × List String :=
  raw.foldl collectStep ([], [])

def ATTEMPT_LIMIT_MESSAGE : String :=
  "Достигнут лимит попыток (5). Примени правки вручную или упрости изменения."

def EDITS_SHAPE_MESSAGE : String :=
  "Ожидается массив edits: [\x7b path, content \x7d]."

def NO_VALID_EDITS_MESSAGE : String :=
  "Нет валидных правок в edits."

def VALIDATION_OK_MESSAGE : String :=
  "Проверка пройдена. Пользователь может применить правки."

/-- The error returned when every edit was a placeholder (lines 71-77). -/
def placeholderErrorMessage (suspiciousEdits : List String) : String :=
  "ОШИБКА: Контент для файлов [" ++ joinSep ", " suspiciousEdits ++
    "] содержит только заглушку (\"\x7b\x7d\"). Передай реальный полный код файла в поле content. " ++
    "Сначала прочитай файл через read_file, внеси изменения и отправь обновлённую версию."

/-- The line filter of the first-error-line scan (lines 110-121). -/
def significantErrorLine (l : String) : Bool :=
  let t := jsTrim l
  if t.length ≤ 10 || jsStartsWith t "---" then false
  else
    let lower := jsToLower t
    if jsIncludes lower "oops" || jsIncludes lower "something went wrong" then false
    else if jsStartsWith lower "npm warn" || jsStartsWith lower "npm notice" then false
    else if jsIncludes lower "will be installed" || jsIncludes lower "installing packages" then false
    else true

def firstErrorLine (output : String) : Option String :=
  (jsSplitOn output "\n").find? significantErrorLine

/-- The per-edit summary of lines 132-134 (content clipped to 600
characters with a truncation marker). -/
def editsSummaryOf (edits : List (String × String)) : String :=
  joinSep "\n\n" (edits.map (fun e =>
    "### " ++ e.1 ++ "\n\x60\x60\x60\n" ++ jsSliceStr e.2 600 ++
      (if 600 < e.2.length then "\n... (truncated)" else "") ++ "\n\x60\x60\x60"))

def mkValidationErrorText (attempt : Nat) (output : String)
    (edits : List (String × String)) : String :=
  "Ошибки проверки (попытка " ++ toString (attempt + 1) ++ "/5):\n\n" ++ output ++
    "\n\nТвои правки которые были проверены (файлы откатились — используй их как основу для исправления):\n\n" ++
    editsSummaryOf edits ++ "\n\nПрочитай эти версии, исправь ошибки и вызови propose_edits снова."

structure ProposeOutcome where
  result : String
  diffFiles : List (String × String × String)
  validationCalled : Bool
  mistakeLogged : Bool
  fs : FileSys
deriving DecidableEq, Repr

/-- The main path of `execute` once a non-empty filtered edit list exists
(lines 85-143): collect originals through the fallback reader, forward
the commands (the source keeps `validation_commands` only when it is a
non-empty array — its element-wise string filter is the identity in this
typed model), run the embedded `runValidation`, and format the result. -/
def proposeEditsRun (oracle : CmdOracle) (readFallback : String → Option (String × String))
    (fs : FileSys) (attempt : Nat) (edits : List (String × String))
    (validationCommands : Option (List String)) : ProposeOutcome :=
  let originals := edits.map (fun e =>
    match readFallback e.1 with
    | some rc => (rc.1, rc.2, e.2)
    | none => (e.1, "", e.2))
  let cmds :=
    match validationCommands with
    | some cs => if cs.isEmpty then none else some cs
    | none => none
  let vr := runValidation oracle fs (edits.map (fun e => ⟨e.1, e.2⟩)) cmds
  ⟨if vr.hasErrors then mkValidationErrorText attempt vr.output edits
    else VALIDATION_OK_MESSAGE,
   originals, true,
   vr.hasErrors && decide (1 ≤ attempt) && (firstErrorLine vr.output).isSome,
   vr.fs⟩

/-- `proposeEditsHandler.execute(args, workspaceUri, context)`. The
repeated `collectEdits raw` occurrences stand for the single
`(edits, suspiciousEdits)` binding of the source. -/
def proposeEditsExecute (oracle : CmdOracle) (readFallback : String → Option (String × String))
    (fs : FileSys) (attempt : Nat) (rawEdits : Option (List RawEdit))
    (validationCommands : Option (List String)) : ProposeOutcome :=
  if 5 ≤ attempt then ⟨ATTEMPT_LIMIT_MESSAGE, [], false, false, fs⟩
  else
    match rawEdits with
    | none => ⟨EDITS_SHAPE_MESSAGE, [], false, false, fs⟩
    | some raw =>
      if raw.isEmpty then ⟨EDITS_SHAPE_MESSAGE, [], false, false, fs⟩
      else if !(collectEdits raw).2.isEmpty && (collectEdits raw).1.isEmpty then
        ⟨placeholderErrorMessage (collectEdits raw).2, [], false, false, fs⟩
      else if (collectEdits raw).1.isEmpty then
        ⟨NO_VALID_EDITS_MESSAGE, [], false, false, fs⟩
      else
        proposeEditsRun oracle readFallback fs attempt (collectEdits raw).1 validationCommands

/-- A raw item that the filtering loop diverts to `suspiciousEdits`. -/
def isPlaceholderRaw : RawEdit → Bool
  | .wellFormed p c => placeholderContent (normSlash p) c
  | .malformed => false

theorem collectEdits_all_aux (raw : List RawEdit) :
    ∀ (acc : List (String × String) × List String),
      (∀ e ∈ raw, isPlaceholderRaw e = true) →
      (raw.foldl collectStep acc).1 = acc.1 ∧
      (raw.foldl collectStep acc).2.length = acc.2.length + raw.length := by
  induction raw with
  | nil => intro acc _; exact ⟨rfl, by simp⟩
  | cons a rest ih =>
    intro acc hall
    have ha := hall a (List.mem_cons_self a rest)
    cases a with
    | malformed => simp [isPlaceholderRaw] at ha
    | wellFormed p c =>
      have ha2 : placeholderContent (normSlash p) c = true := by
        simpa [isPlaceholderRaw] using ha
      have hstep : collectStep acc (RawEdit.wellFormed p c) = (acc.1, acc.2 ++ [normSlash p]) := by
        dsimp only [collectStep]
        rw [if_pos ha2]
      rw [List.foldl_cons, hstep]
      obtain ⟨h1, h2⟩ := ih (acc.1, acc.2 ++ [normSlash p])
        (fun e he => hall e (List.mem_cons_of_mem _ he))
      refine ⟨h1, ?_⟩
      rw [h2]
      dsimp only
      simp only [List.length_append, List.length_cons, List.length_nil]
      omega

/-- C10: the placeholder guard of `propose_edits`. Part 1: the edit list
the handler carries forward to validation never contains an edit whose
content is a placeholder (content trimming to "\x7b\x7d", "[]" or the
empty string is diverted to `suspiciousEdits` before validation runs).
Part 2: a call below the attempt limit whose non-empty edits array
consists solely of placeholders returns the error message instructing the
model to supply real file content, calls no validation, logs nothing and
leaves the file system untouched. -/
theorem proposeEdits_placeholder_guard :
    (∀ (raw : List RawEdit) (p c : String),
        (p, c) ∈ (collectEdits raw).1 → placeholderContent p c = false) ∧
    (∀ (oracle : CmdOracle) (readFallback : String → Option (String × String))
        (fs : FileSys) (attempt : Nat) (raw : List RawEdit)
        (validationCommands : Option (List String)),
        attempt < 5 → raw ≠ [] →
        (∀ e ∈ raw, isPlaceholderRaw e = true) →
        proposeEditsExecute oracle readFallback fs attempt (some raw) validationCommands =
          ⟨placeholderErrorMessage (collectEdits raw).2, [], false, false, fs⟩) := by
  constructor
  · intro raw p c hmem
    exact @foldl_inv RawEdit (List (String × String) × List String)
      (fun acc => ∀ p c, (p, c) ∈ acc.1 → placeholderContent p c = false)
      collectStep raw ([], [])
      (by intro p c h; simp at h)
      (by
        intro acc e _ hP q d hqd
        cases e with
        | malformed => exact hP q d hqd
        | wellFormed u v =>
          dsimp only [collectStep] at hqd
          by_cases hpl : placeholderContent (normSlash u) v = true
          · rw [if_pos hpl] at hqd
            exact hP q d hqd
          · rw [if_neg hpl] at hqd
            rcases List.mem_append.mp hqd with h | h
            · exact hP q d h
            · have hp := List.mem_singleton.mp h
              have hq : q = normSlash u := congrArg Prod.fst hp
              have hd : d = v := congrArg Prod.snd hp
              rw [hq, hd]
              simp only [Bool.not_eq_true] at hpl
              exact hpl)
      p c hmem
  · intro oracle readFallback fs attempt raw validationCommands h5 hne hall
    obtain ⟨h1, h2⟩ := collectEdits_all_aux raw ([], []) hall
    have h2' : (collectEdits raw).2.length = raw.length := by simpa using h2
    have hlen : 0 < (collectEdits raw).2.length := by
      rw [h2']
      cases raw with
      | nil => exact absurd rfl hne
      | cons a rest => simp
    have hsusp : (collectEdits raw).2.isEmpty = false := by
      cases hl : (collectEdits raw).2 with
      | nil => rw [hl] at hlen; simp at hlen
      | cons x xs => rfl
    have hempty1 : (collectEdits raw).1.isEmpty = true := by
      rw [show collectEdits raw = raw.foldl collectStep ([], []) from rfl, h1]
      rfl
    have hre : raw.isEmpty = false := by
      cases raw with
      | nil => exact absurd rfl hne
      | cons a rest => rfl
    unfold proposeEditsExecute
    rw [if_neg (by omega)]
    dsimp only
    rw [hre, if_neg (by decide)]
    rw [if_pos (by rw [hsusp, hempty1]; rfl)]

def c10Oracle : CmdOracle := fun _ => ⟨"", false⟩

def c10Fs : FileSys := [("a.ts", "old")]

def c10Raw : List RawEdit :=
  [RawEdit.wellFormed "a.ts" "  ", RawEdit.wellFormed "b\\c.ts" "\x7b\x7d"]

theorem proposeEdits_placeholder_guard_witness :
    proposeEditsExecute c10Oracle (fun _ => none) c10Fs 0 (some c10Raw) none =
      ⟨placeholderErrorMessage ["a.ts", "b/c.ts"], [], false, false, c10Fs⟩ :=
  (proposeEdits_placeholder_guard.2 c10Oracle (fun _ => none) c10Fs 0 c10Raw none
    (by decide) (by decide) (by decide)).trans (by decide)

end SkyGraph
